import Mathlib

/-!
Verification development for the PathCompacter repository (iterative
Ramer-Douglas-Peucker polyline simplification).

The embedding follows the iterative implementation (the `compactPath`
driver with an explicit subproblem stack, its subproblem solver, and the
two deviation metrics).  C doubles are modelled as rationals, pointers as
offsets into lists, and every memory access is bounds-checked: an access
outside the caller-provided arrays, or a read of an uninitialized
variable, yields the distinguished outcome `CPOutcome.ub`.  Heap
allocation for the work stack is modelled as always succeeding in the
main driver; the stack-growth allocation path of
`compactPathCallStackPush` together with its cleanup is modelled
separately with an explicit allocator in order to reason about
allocation failure.
-/

namespace PathCompacter

/-- Embedding of `struct DVector2D`: a double precision 2D point, with the
double coordinates modelled as rationals. -/
structure DVector2D where
  dX : ℚ
  dY : ℚ
deriving DecidableEq, Repr

instance : Inhabited DVector2D := ⟨⟨0, 0⟩⟩

/-- Embedding of the `DeviationMetric` function-pointer type: start of
segment, end of segment, candidate point, squared segment length. -/
abbrev DeviationMetric := DVector2D → DVector2D → DVector2D → ℚ → ℚ

/-- Embedding of `perpendicularDistance` from DeviationMetrics.c: squared
area-based distance to the infinite line through `start` and `endp`.
Division by zero (degenerate segment) yields 0 in the rational model. -/
def perpendicularDistance (start endp mid : DVector2D) (dSquareSegmentLength : ℚ) : ℚ :=
  let dArea := (1/2 : ℚ) * (start.dX * (mid.dY - endp.dY) +
                  mid.dX * (endp.dY - start.dY) +
                  endp.dX * (start.dY - mid.dY))
  dArea * dArea / dSquareSegmentLength

/-- Embedding of `shortestDistanceToSegment` from DeviationMetrics.c,
including its branch structure exactly as written: the first branch tests
`dAdotB > 0 && dBdotC < 0`; the second `dAdotB < 0 && dBdotC < 0` returns
`dAX*dAX + dAY*dAY`; the final branch returns `dCX*dCX + dCY*dCY`. -/
def shortestDistanceToSegment (start endp mid : DVector2D) (dSquareSegmentLength : ℚ) : ℚ :=
  let dAX := endp.dX - start.dX
  let dAY := endp.dY - start.dY
  let dBX := mid.dX - start.dX
  let dBY := mid.dY - start.dY
  let dCX := mid.dX - endp.dX
  let dCY := mid.dY - endp.dY
  let dAdotB := dAX * dBX + dAY * dBY
  let dBdotC := dBX * dCX + dBY * dCY
  if dAdotB > 0 ∧ dBdotC < 0 then
    let dArea := (1/2 : ℚ) * (start.dX * (mid.dY - endp.dY) +
                   mid.dX * (endp.dY - start.dY) +
                   endp.dX * (start.dY - mid.dY))
    dArea * dArea / dSquareSegmentLength
  else
    if dAdotB < 0 ∧ dBdotC < 0 then
      dAX * dAX + dAY * dAY
    else
      dCX * dCX + dCY * dCY

/-- Embedding of `enum CompactPathResultCode`. -/
inductive CompactPathResultCode where
  | divide
  | linearize
  | solved
deriving DecidableEq, Repr

/-- Embedding of `struct CompactPathSubproblemCall`.  The two pointers
`pPointArray` and `pResultPointArray` are modelled as offsets `pOff` and
`rOff` from the caller's two base arrays; the code only ever forms them by
adding the same division index to both bases. -/
structure CompactPathSubproblemCall where
  pOff : Nat
  rOff : Nat
  len : Nat
deriving DecidableEq, Repr

/-- The memory visible to one `compactPath` call: the input point array
and the result point array.  When `aliased` is true the caller passed the
same array for both, so reads of the input are served from `rmem` (the
single shared array) and `pmem` is unused. -/
structure CPState where
  pmem : List DVector2D
  rmem : List DVector2D
  aliased : Bool
deriving DecidableEq, Repr

/-- Read `pPointArray[i]`; `none` models an out-of-bounds access. -/
def readPoint (s : CPState) (i : Nat) : Option DVector2D :=
  if s.aliased then s.rmem[i]? else s.pmem[i]?

/-- Write `pResultPointArray[i] := v`; `none` models an out-of-bounds
write. -/
def writePoint (s : CPState) (i : Nat) (v : DVector2D) : Option CPState :=
  if i < s.rmem.length then some { s with rmem := s.rmem.set i v } else none

/-- Embedding of the `memcpy` in the solver's small-subproblem branch:
element-by-element forward copy of `cnt` points from `pPointArray + src`
to `pResultPointArray + dst`. -/
def copyRegion (s : CPState) (src dst : Nat) : Nat → Option CPState
  | 0 => some s
  | cnt + 1 => do
    let v ← readPoint s src
    let s' ← writePoint s dst v
    copyRegion s' (src + 1) (dst + 1) cnt

/-- Write a list of values at consecutive result indices starting at
`dst`. -/
def writeList (s : CPState) (dst : Nat) : List DVector2D → Option CPState
  | [] => some s
  | v :: vs => do
    let s' ← writePoint s dst v
    writeList s' (dst + 1) vs

/-- Embedding of the driver's `memmove`: all `cnt` source elements of the
result array are read first (memmove tolerates overlap), then written at
the destination. -/
def memmoveR (s : CPState) (dst src cnt : Nat) : Option CPState := do
  let vals ← (List.range cnt).mapM (fun i => s.rmem[src + i]?)
  writeList s dst vals

/-- One step of the solver's maximum-deviation scan: the running state is
the pair `(dMaxSquareDeviationInThisSegment, iMaxPointIndex)`, where the
index is `none` while the local variable `iMaxPointIndex` is still
uninitialized. -/
def scanStep (st : ℚ × Option Nat) (dev : ℚ) (i : Nat) : ℚ × Option Nat :=
  if dev > st.1 then (dev, some i) else st

/-- Embedding of the solver's deviation scan loop
(`for i = 1; i < uPointsInCurrentPath - 1; ++i`).  Returns the final
running maximum and the final `iMaxPointIndex` contents. -/
def deviationScan (s : CPState) (pOff len : Nat) (p0 pLast : DVector2D)
    (dSquareSegLen : ℚ) (metric : DeviationMetric) : Option (ℚ × Option Nat) :=
  (List.range' 1 (len - 2)).foldlM
    (fun st i => do
      let pi ← readPoint s (pOff + i)
      pure (scanStep st (metric p0 pLast pi dSquareSegLen) i))
    ((0 : ℚ), (none : Option Nat))

/-- Embedding of `compactPathSubproblemSolver`.  Returns the result code,
the updated memory, the value stored through `puPointsInResultPath`
(meaningful only for `solved`/`linearize`, matching the C comment), and
the value stored through `piDivisionIndex` (meaningful only for `divide`;
`none` means the uninitialized local `iMaxPointIndex` was stored). -/
def compactPathSubproblemSolver (s : CPState) (pOff len rOff : Nat)
    (dEpsilon : ℚ) (metric : DeviationMetric) :
    Option (CompactPathResultCode × CPState × Nat × Option Nat) := do
  if len < 3 then
    let s' ← if len > 0 then copyRegion s pOff rOff len else pure s
    pure (CompactPathResultCode.solved, s', len, none)
  else do
    let p0 ← readPoint s pOff
    let pLast ← readPoint s (pOff + len - 1)
    let dDX := pLast.dX - p0.dX
    let dDY := pLast.dY - p0.dY
    let dSquareSegLen := dDX * dDX + dDY * dDY
    let scan ← deviationScan s pOff len p0 pLast dSquareSegLen metric
    if scan.1 < dEpsilon * dEpsilon then do
      let s' ← writePoint s rOff p0
      let s'' ← writePoint s' (rOff + 1) pLast
      pure (CompactPathResultCode.linearize, s'', 2, none)
    else
      pure (CompactPathResultCode.divide, s, 0, scan.2)

/-- Outcome of a `compactPath` call: successful completion carrying the
final result memory and the value stored through
`puPointsInResultPath`; the FAILURE return value; or undefined behavior
(out-of-bounds access or a branch on an uninitialized variable). -/
inductive CPOutcome where
  | success (rmem : List DVector2D) (len : Nat)
  | failure
  | ub
deriving DecidableEq, Repr

/-- Embedding of the driver's `while (iNumCallsInStack > 0)` loop.  The
work stack is a list with its head as the top; allocation is modelled as
always succeeding (allocation failure is modelled separately).  `fuel`
bounds the number of iterations, which is a model artifact: it is chosen
large enough at the top level that it is never exhausted. -/
def compactPathLoop (dEpsilon : ℚ) (metric : DeviationMetric) :
    Nat → List CompactPathSubproblemCall → CPState → Nat → CPOutcome
  | 0, _, _, _ => CPOutcome.ub
  | _ + 1, [], s, iNumSolvedPoints => CPOutcome.success s.rmem iNumSolvedPoints
  | fuel + 1, current :: rest, s, iNumSolvedPoints =>
    match compactPathSubproblemSolver s current.pOff current.len current.rOff dEpsilon metric with
    | none => CPOutcome.ub
    | some (code, s', rlen, dIdx) =>
      match code with
      | CompactPathResultCode.divide =>
        match dIdx with
        | none => CPOutcome.ub
        | some iDivisionIndex =>
          if iDivisionIndex ≤ 0 ∨ iDivisionIndex ≥ current.len then
            CPOutcome.failure
          else
            compactPathLoop dEpsilon metric fuel
              ({ pOff := current.pOff, rOff := current.rOff, len := iDivisionIndex + 1 } ::
               { pOff := current.pOff + iDivisionIndex, rOff := current.rOff + iDivisionIndex,
                 len := current.len - iDivisionIndex } :: rest)
              s' iNumSolvedPoints
      | _ =>
        if rlen = 0 then CPOutcome.ub
        else
          match memmoveR s' iNumSolvedPoints (current.rOff + 1) (rlen - 1) with
          | none => CPOutcome.ub
          | some s'' =>
            compactPathLoop dEpsilon metric fuel rest s'' (iNumSolvedPoints + (rlen - 1))

/-- Embedding of the iterative `compactPath` driver.  `n` is the
`uPointsInCurrentPath` argument.  The driver performs no argument
validation: it first copies the first input point to the result
(`*pResultPointArray = *pPointArray`), records one solved point, pushes
the whole-path subproblem and runs the loop.  The loop fuel `2 * n + 2`
strictly exceeds the number of iterations any run can take. -/
def compactPath (s : CPState) (n : Nat) (dEpsilon : ℚ) (metric : DeviationMetric) : CPOutcome :=
  match readPoint s 0 with
  | none => CPOutcome.ub
  | some p0 =>
    match writePoint s 0 p0 with
    | none => CPOutcome.ub
    | some s1 =>
      compactPathLoop dEpsilon metric (2 * n + 2)
        [{ pOff := 0, rOff := 0, len := n }] s1 1

/-- Run `compactPath` with separate input and result arrays: `inp` is the
caller's input, `rinit` the initial (arbitrary) contents of the
caller-allocated result array. -/
def runCompactPath (inp rinit : List DVector2D) (dEpsilon : ℚ)
    (metric : DeviationMetric) : CPOutcome :=
  compactPath { pmem := inp, rmem := rinit, aliased := false } inp.length dEpsilon metric

/-- Run `compactPath` with the result array aliasing the input array
(the same storage passed for both arguments). -/
def runCompactPathAliased (inp : List DVector2D) (dEpsilon : ℚ)
    (metric : DeviationMetric) : CPOutcome :=
  compactPath { pmem := [], rmem := inp, aliased := true } inp.length dEpsilon metric

/-! Allocation-failure model for the work-stack growth path.

`compactPathCallStackPush` grows the stack with
`*ppCallStackBase = realloc(*ppCallStackBase, ...)`.  The heap is
modelled as the list of live engine-owned block ids; `realloc` either
frees the old block and returns a fresh one, or fails, in which case the
old block stays live but the returned pointer is NULL. -/

/-- Heap of engine-owned allocations: live block ids and the next fresh
id. -/
structure Heap where
  live : List Nat
  next : Nat
deriving DecidableEq, Repr

/-- Model of `free(p)`: a NULL pointer frees nothing. -/
def freeBlock (p : Option Nat) (h : Heap) : Heap :=
  match p with
  | none => h
  | some b => { h with live := h.live.erase b }

/-- Model of `realloc(old, newSize)`: on success the old block is
released and a fresh block is returned; on failure NULL is returned and
the old block remains live. -/
def reallocBlock (ok : Bool) (old : Option Nat) (h : Heap) : Option Nat × Heap :=
  if ok then
    let h1 := freeBlock old h
    (some h1.next, { live := h1.next :: h1.live, next := h1.next + 1 })
  else (none, h)

/-- The variables of the call stack as `compactPath` holds them:
`pCallStackBase` (a pointer, possibly NULL), `iCallStackCapacity` and
`iNumCallsInStack`. -/
structure CallStackRec where
  base : Option Nat
  capacity : Nat
  numCalls : Nat
deriving DecidableEq, Repr

/-- `#define COMPACT_PATH_CALL_STACK_UNIT 2048`. -/
def COMPACT_PATH_CALL_STACK_UNIT : Nat := 2048

/-- Embedding of `compactPathCallStackPush` (the stack-growth and push
logic; the stored call contents are irrelevant to the allocation
behavior and are not tracked).  Returns the C function's success flag
together with the updated stack variables and heap.  Exactly as in the
code, the capacity is bumped before `realloc`, and on `realloc` failure
the base pointer has already been overwritten with NULL. -/
def compactPathCallStackPush (reallocOk : Bool) (st : CallStackRec) (h : Heap) :
    Bool × CallStackRec × Heap :=
  if st.numCalls ≥ st.capacity then
    let cap' := st.capacity + COMPACT_PATH_CALL_STACK_UNIT
    let rh := reallocBlock reallocOk st.base h
    match rh.1 with
    | none => (false, { base := none, capacity := cap', numCalls := st.numCalls }, rh.2)
    | some b => (true, { base := some b, capacity := cap', numCalls := st.numCalls + 1 }, rh.2)
  else
    (true, { st with numCalls := st.numCalls + 1 }, h)

/-- Embedding of the cleanup performed by `COMPACT_PATH_RETURN`:
`free(pCallStackBase)`. -/
def compactPathReturnCleanup (base : Option Nat) (h : Heap) : Heap :=
  freeBlock base h

/-! Proof machinery: slices, overwriting, the total deviation scan, and
a functional presentation of the divide-and-conquer recursion that the
driver loop implements.  These definitions are not code embeddings; they
are related to the embedded code by the theorems below. -/

/-- The contiguous slice of `len` elements of `inp` starting at `off`. -/
def sliceSpan (inp : List DVector2D) (off len : Nat) : List DVector2D :=
  (inp.drop off).take len

/-- Replace the elements of `l` at positions `[i, i + vs.length)` by
`vs`. -/
def overwrite (l : List α) (i : Nat) (vs : List α) : List α :=
  l.take i ++ vs ++ l.drop (i + vs.length)

/-- First point of a span (the solver's `pPointArray[0]`). -/
def spanStart (inp : List DVector2D) (off : Nat) : DVector2D :=
  inp.getD off default

/-- Last point of a span (the solver's
`pPointArray[uPointsInCurrentPath - 1]`). -/
def spanEnd (inp : List DVector2D) (off len : Nat) : DVector2D :=
  inp.getD (off + len - 1) default

/-- The solver's precomputed `dSquareSegLen` for a span. -/
def spanSqLen (inp : List DVector2D) (off len : Nat) : ℚ :=
  let dDX := (spanEnd inp off len).dX - (spanStart inp off).dX
  let dDY := (spanEnd inp off len).dY - (spanStart inp off).dY
  dDX * dDX + dDY * dDY

/-- Deviation of a point value against a fixed segment. -/
def pointDev (metric : DeviationMetric) (p0 pLast : DVector2D) (sqLen : ℚ)
    (v : DVector2D) : ℚ :=
  metric p0 pLast v sqLen

/-- Deviation of the interior point at span-relative index `i`. -/
def spanDev (inp : List DVector2D) (off len : Nat) (metric : DeviationMetric)
    (i : Nat) : ℚ :=
  pointDev metric (spanStart inp off) (spanEnd inp off len) (spanSqLen inp off len)
    (inp.getD (off + i) default)

/-- Total (read-unchecked) version of the solver's deviation scan. -/
def spanScanT (inp : List DVector2D) (off len : Nat) (metric : DeviationMetric) :
    ℚ × Option Nat :=
  (List.range' 1 (len - 2)).foldl
    (fun st i => scanStep st (spanDev inp off len metric i) i) ((0 : ℚ), none)

/-- Functional presentation of the subproblem recursion: the list of
output points a span contributes beyond its own first point, or `none`
if the recursion would branch on the uninitialized division index.  The
bounds guard on `d` is provably always satisfied when reached (the scan
only produces interior indices); it makes the recursion structurally
well-founded. -/
def rdpContrib (inp : List DVector2D) (eps : ℚ) (metric : DeviationMetric)
    (off len : Nat) : Option (List DVector2D) :=
  if len < 3 then some (sliceSpan inp (off + 1) (len - 1))
  else
    let sc := spanScanT inp off len metric
    if sc.1 < eps * eps then some [inp.getD (off + len - 1) default]
    else
      match sc.2 with
      | none => none
      | some d =>
        if h : 1 ≤ d ∧ d + 2 ≤ len then
          match rdpContrib inp eps metric off (d + 1),
                rdpContrib inp eps metric (off + d) (len - d) with
          | some l, some r => some (l ++ r)
          | _, _ => none
        else none
termination_by len
decreasing_by
  · omega
  · omega

/-- Well-formedness of the work stack relative to the input: the spans
on the stack (top first) tile the not-yet-resolved part of the input,
each span sharing its first point with the previous span's last point,
point offsets equal to result offsets, every span at least 2 long, and
the bottom span ending at the last input point. -/
def StackOK (n : Nat) : Nat → List CompactPathSubproblemCall → Prop
  | start, [] => start + 1 = n
  | start, c :: rest =>
      c.pOff = start ∧ c.rOff = start ∧ 2 ≤ c.len ∧ StackOK n (start + c.len - 1) rest

/-- All input reads at indices `≥ start` still see the original input
values (trivial for separate arrays; the in-place invariant when the
result array aliases the input array). -/
def AgreesFrom (s : CPState) (inp : List DVector2D) (start : Nat) : Prop :=
  ∀ i, start ≤ i → readPoint s i = inp[i]?

/-- The caller-visible result of an outcome: the first `len` result
points and the reported length on success, nothing otherwise. -/
def resultView : CPOutcome → Option (List DVector2D × Nat)
  | CPOutcome.success rmem len => some (rmem.take len, len)
  | _ => none

/-! Utility lemmas about `overwrite`, `sliceSpan` and the memory
operations. -/

theorem overwrite_nil (l : List α) (i : Nat) : overwrite l i [] = l := by
  simp [overwrite]

theorem length_overwrite {l vs : List α} {i : Nat} (h : i + vs.length ≤ l.length) :
    (overwrite l i vs).length = l.length := by
  simp [overwrite]
  omega

theorem getElem?_overwrite_lt {l vs : List α} {i j : Nat} (hj : j < i)
    (h : i ≤ l.length) : (overwrite l i vs)[j]? = l[j]? := by
  have hlt : (List.take i l).length = i := by simp [List.length_take]; omega
  rw [overwrite, List.append_assoc, List.getElem?_append, hlt, if_pos hj,
    List.getElem?_take, if_pos hj]

theorem getElem?_overwrite_mem {l vs : List α} {i j : Nat} (h1 : i ≤ j)
    (h2 : j < i + vs.length) (h3 : i ≤ l.length) :
    (overwrite l i vs)[j]? = vs[j - i]? := by
  have hlt : (List.take i l).length = i := by simp [List.length_take]; omega
  rw [overwrite, List.append_assoc, List.getElem?_append, hlt, if_neg (by omega),
    List.getElem?_append, if_pos (by omega)]

theorem getElem?_overwrite_ge {l vs : List α} {i j : Nat} (h1 : i + vs.length ≤ j)
    (h3 : i ≤ l.length) : (overwrite l i vs)[j]? = l[j]? := by
  have hlt : (List.take i l).length = i := by simp [List.length_take]; omega
  rw [overwrite, List.append_assoc, List.getElem?_append, hlt, if_neg (by omega),
    List.getElem?_append, if_neg (by omega), List.getElem?_drop]
  congr 1
  omega

theorem take_overwrite_le {l vs : List α} {i k : Nat} (hk : k ≤ i) (h3 : i ≤ l.length) :
    (overwrite l i vs).take k = l.take k := by
  have hlt : (List.take i l).length = i := by simp [List.length_take]; omega
  rw [overwrite, List.append_assoc, List.take_append_eq_append_take, hlt,
    Nat.sub_eq_zero_of_le hk, List.take_zero, List.append_nil, List.take_take,
    Nat.min_eq_left hk]

theorem take_overwrite_full {l vs : List α} {i : Nat} (h3 : i + vs.length ≤ l.length) :
    (overwrite l i vs).take (i + vs.length) = l.take i ++ vs := by
  have hlt : (List.take i l).length = i := by simp [List.length_take]; omega
  rw [overwrite, List.append_assoc, List.take_append_eq_append_take, hlt]
  have h4 : i + vs.length - i = vs.length := by omega
  rw [h4, List.take_append_eq_append_take, Nat.sub_self, List.take_zero,
    List.append_nil, List.take_length, List.take_take, Nat.min_eq_right (by omega)]

theorem sliceSpan_len_zero (inp : List DVector2D) (off : Nat) :
    sliceSpan inp off 0 = [] := by simp [sliceSpan]

theorem sliceSpan_succ {inp : List DVector2D} {off : Nat} (len : Nat)
    (h : off < inp.length) :
    sliceSpan inp off (len + 1) = inp.getD off default :: sliceSpan inp (off + 1) len := by
  rw [sliceSpan, List.drop_eq_getElem_cons h, List.take_succ_cons, sliceSpan]
  congr 1
  rw [List.getD_eq_getElem?_getD, List.getElem?_eq_getElem h]
  rfl

theorem length_sliceSpan {inp : List DVector2D} {off len : Nat}
    (h : off + len ≤ inp.length) : (sliceSpan inp off len).length = len := by
  simp [sliceSpan, List.length_take, List.length_drop]
  omega

theorem getElem?_sliceSpan {inp : List DVector2D} {off len j : Nat} (h : j < len) :
    (sliceSpan inp off len)[j]? = inp[off + j]? := by
  simp [sliceSpan, List.getElem?_take, h, List.getElem?_drop]

theorem writePoint_eq_some {s : CPState} {i : Nat} (v : DVector2D)
    (h : i < s.rmem.length) :
    writePoint s i v = some { s with rmem := s.rmem.set i v } := by
  simp [writePoint, h]

theorem readPoint_set_ne {s : CPState} {i j : Nat} (v : DVector2D) (h : j ≠ i) :
    readPoint { s with rmem := s.rmem.set i v } j = readPoint s j := by
  cases s with
  | mk pmem rmem aliased =>
    simp only [readPoint]
    cases aliased <;> simp [List.getElem?_set_ne (Ne.symm h)]

theorem overwrite_singleton {l : List α} {i : Nat} (v : α) (h : i < l.length) :
    overwrite l i [v] = l.set i v := by
  rw [List.set_eq_take_cons_drop v h, overwrite]
  simp

theorem overwrite_set_cons {l : List α} {i : Nat} (v : α) (vs : List α)
    (h : i + vs.length < l.length) :
    overwrite (l.set i v) (i + 1) vs = overwrite l i (v :: vs) := by
  apply List.ext_getElem?
  intro j
  have hlen : (l.set i v).length = l.length := List.length_set ..
  rcases Nat.lt_or_ge j (i + 1) with hj | hj
  · rw [getElem?_overwrite_lt hj (by omega)]
    rcases Nat.lt_or_ge j i with hj2 | hj2
    · rw [getElem?_overwrite_lt hj2 (by omega), List.getElem?_set_ne (by omega)]
    · have hji : j = i := by omega
      subst hji
      rw [List.getElem?_set_self (by omega), getElem?_overwrite_mem (Nat.le_refl _)
        (by simp) (by omega)]
      simp
  · rcases Nat.lt_or_ge j (i + 1 + vs.length) with hj3 | hj3
    · rw [getElem?_overwrite_mem hj (by omega) (by omega),
        getElem?_overwrite_mem (by omega) (by simp; omega) (by omega)]
      have : j - i = (j - (i + 1)) + 1 := by omega
      rw [this]
      simp
    · rw [getElem?_overwrite_ge (by omega) (by omega), List.getElem?_set_ne (by omega),
        getElem?_overwrite_ge (by simp; omega) (by omega)]

theorem writeList_eq_some :
    ∀ (vs : List DVector2D) (s : CPState) (dst : Nat),
      dst + vs.length ≤ s.rmem.length →
      writeList s dst vs = some { s with rmem := overwrite s.rmem dst vs } := by
  intro vs
  induction vs with
  | nil =>
    intro s dst h
    simp [writeList, overwrite_nil]
  | cons v vs ih =>
    intro s dst h
    simp only [List.length_cons] at h
    rw [writeList, writePoint_eq_some v (by omega), Option.bind_eq_bind,
      Option.some_bind, ih _ (dst + 1) (by simp [List.length_set]; omega)]
    congr 2
    exact overwrite_set_cons v vs (by omega)

theorem readRange_eq_some :
    ∀ (cnt : Nat) (l : List DVector2D) (src : Nat), src + cnt ≤ l.length →
      (List.range cnt).mapM (fun i => l[src + i]?) = some ((l.drop src).take cnt) := by
  intro cnt
  induction cnt with
  | zero =>
    intro l src h
    rfl
  | succ n ih =>
    intro l src h
    rw [List.range_succ, List.mapM_append, ih l src (by omega)]
    have h0 : l[src + n]? = some l[src + n] := List.getElem?_eq_getElem (by omega)
    simp only [List.mapM_cons, List.mapM_nil, h0, Option.bind_eq_bind, Option.some_bind,
      Option.pure_def, Option.some.injEq]
    rw [List.take_succ]
    congr 1
    rw [List.getElem?_drop, h0]
    rfl

theorem memmoveR_eq_some {s : CPState} {dst src cnt : Nat}
    (h1 : src + cnt ≤ s.rmem.length) (h2 : dst + cnt ≤ s.rmem.length) :
    memmoveR s dst src cnt =
      some { s with rmem := overwrite s.rmem dst ((s.rmem.drop src).take cnt) } := by
  have hlen : ((s.rmem.drop src).take cnt).length = cnt := by
    simp [List.length_take, List.length_drop]; omega
  rw [memmoveR, readRange_eq_some cnt s.rmem src h1, Option.bind_eq_bind,
    Option.some_bind, writeList_eq_some _ s dst (by rw [hlen]; omega)]

theorem copyRegion_eq_some {inp : List DVector2D} :
    ∀ (cnt : Nat) (s : CPState) (src : Nat),
      (∀ i, i < cnt → readPoint s (src + i) = inp[src + i]?) →
      src + cnt ≤ inp.length → src + cnt ≤ s.rmem.length →
      copyRegion s src src cnt =
        some { s with rmem := overwrite s.rmem src (sliceSpan inp src cnt) } := by
  intro cnt
  induction cnt with
  | zero =>
    intro s src hrd hb1 hb2
    simp [copyRegion, sliceSpan_len_zero, overwrite_nil]
  | succ n ih =>
    intro s src hrd hb1 hb2
    have hv : readPoint s (src + 0) = inp[src + 0]? := hrd 0 (by omega)
    rw [Nat.add_zero] at hv
    have hvs : inp[src]? = some inp[src] := List.getElem?_eq_getElem (by omega)
    rw [copyRegion, hv, hvs]
    simp only [Option.bind_eq_bind, Option.some_bind]
    rw [writePoint_eq_some _ (by omega)]
    simp only [Option.some_bind]
    have ihapp := ih { s with rmem := s.rmem.set src inp[src] } (src + 1)
      (by
        intro i hi
        rw [readPoint_set_ne _ (by omega)]
        have hmem := hrd (1 + i) (by omega)
        have heq : src + (1 + i) = src + 1 + i := by omega
        rw [heq] at hmem
        exact hmem)
      (by omega) (by simp [List.length_set]; omega)
    rw [ihapp]
    congr 2
    rw [overwrite_set_cons _ _ (by
      have := @length_sliceSpan inp (src + 1) n (by omega)
      rw [this]; omega)]
    congr 1
    rw [sliceSpan_succ n (by omega)]
    congr 1
    rw [List.getD_eq_getElem?_getD, hvs]
    rfl

/-! The deviation scan: bridging the solver's checked-read fold to the
total fold, and characterizing the fold result (running maximum and
first index attaining it). -/

theorem scan_foldlM_eq {s : CPState} {inp : List DVector2D} {pOff : Nat}
    (p0 pLast : DVector2D) (sq : ℚ) (metric : DeviationMetric) :
    ∀ (idxs : List Nat) (st : ℚ × Option Nat),
      (∀ i ∈ idxs, readPoint s (pOff + i) = inp[pOff + i]? ∧ pOff + i < inp.length) →
      (idxs.foldlM (fun st i => do
          let pi ← readPoint s (pOff + i)
          pure (scanStep st (metric p0 pLast pi sq) i)) st : Option (ℚ × Option Nat)) =
        some (idxs.foldl
          (fun st i => scanStep st (metric p0 pLast (inp.getD (pOff + i) default) sq) i) st) := by
  intro idxs
  induction idxs with
  | nil => intro st h; rfl
  | cons i idxs ih =>
    intro st h
    obtain ⟨hrd, hb⟩ := h i (by simp)
    have hsome : readPoint s (pOff + i) = some inp[pOff + i] := by
      rw [hrd]; exact List.getElem?_eq_getElem hb
    have hgetD : inp.getD (pOff + i) default = inp[pOff + i] := by
      rw [List.getD_eq_getElem?_getD, List.getElem?_eq_getElem hb]; rfl
    rw [List.foldlM_cons, hsome]
    have hred : (do
        let init ← (do
          let pi ← (some inp[pOff + i] : Option DVector2D)
          pure (scanStep st (metric p0 pLast pi sq) i))
        List.foldlM (fun st i => do
          let pi ← readPoint s (pOff + i)
          pure (scanStep st (metric p0 pLast pi sq) i)) init idxs) =
        List.foldlM (fun st i => do
          let pi ← readPoint s (pOff + i)
          pure (scanStep st (metric p0 pLast pi sq) i))
          (scanStep st (metric p0 pLast inp[pOff + i] sq) i) idxs := rfl
    rw [hred, ih _ (fun j hj => h j (by simp [hj])), List.foldl_cons, hgetD]

/-- Invariant satisfied by the deviation scan's running state after
processing the indices `[lo, lo + count)`: either nothing exceeded the
initial 0 and `iMaxPointIndex` is still uninitialized, or the state holds
the first index attaining the strict running maximum. -/
def ScanInv (dev : Nat → ℚ) (lo count : Nat) (st : ℚ × Option Nat) : Prop :=
  (st = (0, none) ∧ ∀ j, lo ≤ j → j < lo + count → dev j ≤ 0) ∨
  (∃ k, lo ≤ k ∧ k < lo + count ∧ st.2 = some k ∧ st.1 = dev k ∧ 0 < st.1 ∧
    (∀ j, lo ≤ j → j < k → dev j < st.1) ∧ (∀ j, lo ≤ j → j < lo + count → dev j ≤ st.1))

theorem scanFold_inv (dev : Nat → ℚ) (lo : Nat) :
    ∀ count, ScanInv dev lo count
      ((List.range' lo count).foldl (fun st i => scanStep st (dev i) i) ((0 : ℚ), none)) := by
  intro count
  induction count with
  | zero =>
    left
    constructor
    · rfl
    · intro j h1 h2; omega
  | succ c ih =>
    have hrc : List.range' lo (c + 1) = List.range' lo c ++ [lo + c] := by
      have hcon := @List.range'_concat 1 lo c
      simpa using hcon
    rw [hrc, List.foldl_append, List.foldl_cons, List.foldl_nil]
    set st := (List.range' lo c).foldl (fun st i => scanStep st (dev i) i) ((0 : ℚ), none)
      with hst
    rcases ih with ⟨heq, hall⟩ | ⟨k, hk1, hk2, hk3, hk4, hk5, hk6, hk7⟩
    · rw [heq]
      simp only [scanStep]
      split
      next hgt =>
        have hgt0 : (0 : ℚ) < dev (lo + c) := hgt
        right
        refine ⟨lo + c, by omega, by omega, rfl, rfl, hgt0, ?_, ?_⟩
        · intro j h1 h2
          exact lt_of_le_of_lt (hall j h1 (by omega)) hgt0
        · intro j h1 h2
          rcases Nat.lt_or_ge j (lo + c) with hj | hj
          · exact le_trans (hall j h1 hj) (le_of_lt hgt0)
          · have hjeq : j = lo + c := by omega
            subst hjeq
            exact le_refl _
      next hgt =>
        have hgt0 : dev (lo + c) ≤ 0 := le_of_not_lt hgt
        left
        refine ⟨rfl, ?_⟩
        intro j h1 h2
        rcases Nat.lt_or_ge j (lo + c) with hj | hj
        · exact hall j h1 hj
        · have hjeq : j = lo + c := by omega
          subst hjeq
          exact hgt0
    · simp only [scanStep]
      split
      next hgt =>
        right
        refine ⟨lo + c, by omega, by omega, rfl, rfl, lt_trans hk5 hgt, ?_, ?_⟩
        · intro j h1 h2
          exact lt_of_le_of_lt (hk7 j h1 (by omega)) hgt
        · intro j h1 h2
          rcases Nat.lt_or_ge j (lo + c) with hj | hj
          · exact le_trans (hk7 j h1 hj) (le_of_lt hgt)
          · have hjeq : j = lo + c := by omega
            subst hjeq
            exact le_refl _
      next hgt =>
        right
        refine ⟨k, hk1, by omega, hk3, hk4, hk5, hk6, ?_⟩
        intro j h1 h2
        rcases Nat.lt_or_ge j (lo + c) with hj | hj
        · exact hk7 j h1 hj
        · have hjeq : j = lo + c := by omega
          subst hjeq
          exact le_of_not_lt hgt

theorem spanScanT_inv (inp : List DVector2D) (off len : Nat) (metric : DeviationMetric) :
    ScanInv (spanDev inp off len metric) 1 (len - 2) (spanScanT inp off len metric) :=
  scanFold_inv (spanDev inp off len metric) 1 (len - 2)

theorem spanScanT_none {inp : List DVector2D} {off len : Nat} {metric : DeviationMetric}
    (h : (spanScanT inp off len metric).2 = none) :
    (spanScanT inp off len metric).1 = 0 ∧
      ∀ j, 1 ≤ j → j < len - 1 → spanDev inp off len metric j ≤ 0 := by
  rcases spanScanT_inv inp off len metric with ⟨heq, hall⟩ | ⟨k, _, _, hk3, _⟩
  · rw [heq]
    refine ⟨rfl, ?_⟩
    intro j h1 h2
    exact hall j h1 (by omega)
  · rw [hk3] at h
    exact absurd h (by simp)

theorem spanScanT_some {inp : List DVector2D} {off len : Nat} {metric : DeviationMetric}
    {d : Nat} (h : (spanScanT inp off len metric).2 = some d) :
    1 ≤ d ∧ d < len - 1 ∧ (spanScanT inp off len metric).1 = spanDev inp off len metric d ∧
      0 < (spanScanT inp off len metric).1 ∧
      (∀ j, 1 ≤ j → j < d → spanDev inp off len metric j < (spanScanT inp off len metric).1) ∧
      (∀ j, 1 ≤ j → j < len - 1 →
        spanDev inp off len metric j ≤ (spanScanT inp off len metric).1) := by
  rcases spanScanT_inv inp off len metric with ⟨heq, _⟩ | ⟨k, hk1, hk2, hk3, hk4, hk5, hk6, hk7⟩
  · rw [heq] at h
    exact absurd h (by simp)
  · rw [hk3] at h
    have hkd : k = d := by injection h
    subst hkd
    refine ⟨hk1, by omega, hk4, hk5, hk6, ?_⟩
    intro j h1 h2
    exact hk7 j h1 (by omega)

theorem scanFold_of_argmax {dev : Nat → ℚ} {lo count k : Nat} {M : ℚ}
    (hk1 : lo ≤ k) (hk2 : k < lo + count) (hM : dev k = M) (hpos : 0 < M)
    (hlt : ∀ j, lo ≤ j → j < k → dev j < M)
    (hle : ∀ j, lo ≤ j → j < lo + count → dev j ≤ M) :
    (List.range' lo count).foldl (fun st i => scanStep st (dev i) i) ((0 : ℚ), none) =
      (M, some k) := by
  rcases scanFold_inv dev lo count with ⟨heq, hall⟩ | ⟨k', hk1', hk2', hk3', hk4', hk5', hk6', hk7'⟩
  · have hc := hall k hk1 hk2
    rw [hM] at hc
    exact absurd hpos (not_lt.mpr hc)
  · set st := (List.range' lo count).foldl (fun st i => scanStep st (dev i) i) ((0 : ℚ), none)
      with hstdef
    have hkk : k' = k := by
      by_contra hne
      rcases Nat.lt_or_ge k' k with hlt2 | hge
      · have h1 : dev k' < M := hlt k' hk1' hlt2
        have h2 : dev k ≤ st.1 := hk7' k hk1 hk2
        rw [hk4', hM] at h2
        exact absurd (lt_of_le_of_lt h2 h1) (lt_irrefl _)
      · have hgt : k < k' := by omega
        have h1 : dev k < st.1 := hk6' k hk1 hgt
        have h2 : dev k' ≤ M := hle k' hk1' hk2'
        rw [hk4'] at h1
        rw [hM] at h1
        exact absurd (lt_of_le_of_lt h2 h1) (lt_irrefl _)
    subst hkk
    have hfst : st.1 = M := by rw [hk4', hM]
    have hpair : st = (st.1, st.2) := rfl
    rw [hpair, hfst, hk3']

/-! Characterization of `compactPathSubproblemSolver` on a span whose
reads still see the original input values. -/

theorem getD_default_eq {inp : List DVector2D} {i : Nat} (h : i < inp.length) :
    inp.getD i default = inp[i] := by
  rw [List.getD_eq_getElem?_getD, List.getElem?_eq_getElem h]
  rfl

theorem deviationScan_eq {s : CPState} {inp : List DVector2D} {pOff len : Nat}
    {metric : DeviationMetric}
    (hrd : ∀ i, i < len → readPoint s (pOff + i) = inp[pOff + i]?)
    (hb : pOff + len ≤ inp.length) (h3 : 3 ≤ len)
    (h0 : pOff < inp.length) (hL : pOff + len - 1 < inp.length) :
    deviationScan s pOff len inp[pOff] inp[pOff + len - 1]
      ((inp[pOff + len - 1].dX - inp[pOff].dX) * (inp[pOff + len - 1].dX - inp[pOff].dX) +
       (inp[pOff + len - 1].dY - inp[pOff].dY) * (inp[pOff + len - 1].dY - inp[pOff].dY))
      metric = some (spanScanT inp pOff len metric) := by
  have ed0 : inp.getD pOff default = inp[pOff] := getD_default_eq h0
  have edL : inp.getD (pOff + len - 1) default = inp[pOff + len - 1] := getD_default_eq hL
  have hmain := @scan_foldlM_eq s inp pOff
    inp[pOff] inp[pOff + len - 1]
    ((inp[pOff + len - 1].dX - inp[pOff].dX) * (inp[pOff + len - 1].dX - inp[pOff].dX) +
     (inp[pOff + len - 1].dY - inp[pOff].dY) * (inp[pOff + len - 1].dY - inp[pOff].dY))
    metric (List.range' 1 (len - 2)) ((0 : ℚ), none)
    (fun i hi => by
      have hi2 := List.mem_range'_1.mp hi
      exact ⟨hrd i (by omega), by omega⟩)
  rw [deviationScan, hmain]
  congr 1
  simp only [spanScanT, spanDev, pointDev, spanStart, spanEnd, spanSqLen, ed0, edL]

theorem solver_spec_small {s : CPState} {inp : List DVector2D} {pOff len : Nat}
    {eps : ℚ} {metric : DeviationMetric}
    (hlen : len < 3)
    (hrd : ∀ i, i < len → readPoint s (pOff + i) = inp[pOff + i]?)
    (hb1 : pOff + len ≤ inp.length) (hb2 : pOff + len ≤ s.rmem.length) :
    compactPathSubproblemSolver s pOff len pOff eps metric =
      some (CompactPathResultCode.solved,
        { s with rmem := overwrite s.rmem pOff (sliceSpan inp pOff len) }, len, none) := by
  cases len with
  | zero =>
    simp only [compactPathSubproblemSolver, if_pos hlen]
    simp [sliceSpan_len_zero, overwrite_nil]
  | succ m =>
    simp only [compactPathSubproblemSolver, if_pos hlen, if_pos (Nat.succ_pos m)]
    rw [copyRegion_eq_some (m + 1) s pOff hrd hb1 hb2]
    rfl

theorem solver_spec_linearize {s : CPState} {inp : List DVector2D} {pOff len : Nat}
    {eps : ℚ} {metric : DeviationMetric}
    (hlen : 3 ≤ len)
    (hrd : ∀ i, i < len → readPoint s (pOff + i) = inp[pOff + i]?)
    (hb1 : pOff + len ≤ inp.length) (hb2 : pOff + 2 ≤ s.rmem.length)
    (hsc : (spanScanT inp pOff len metric).1 < eps * eps) :
    compactPathSubproblemSolver s pOff len pOff eps metric =
      some (CompactPathResultCode.linearize,
        { s with rmem := overwrite s.rmem pOff [spanStart inp pOff, spanEnd inp pOff len] },
        2, none) := by
  have h0' : pOff < inp.length := by omega
  have hL' : pOff + len - 1 < inp.length := by omega
  have h0 : readPoint s pOff = some inp[pOff] := by
    have hh := hrd 0 (by omega)
    rw [Nat.add_zero] at hh
    rw [hh]
    exact List.getElem?_eq_getElem h0'
  have hL : readPoint s (pOff + len - 1) = some inp[pOff + len - 1] := by
    have hh := hrd (len - 1) (by omega)
    have heq : pOff + (len - 1) = pOff + len - 1 := by omega
    rw [heq] at hh
    rw [hh]
    exact List.getElem?_eq_getElem hL'
  simp only [compactPathSubproblemSolver, if_neg (by omega : ¬ len < 3), h0, hL,
    Option.bind_eq_bind, Option.some_bind]
  rw [deviationScan_eq hrd hb1 hlen h0' hL']
  simp only [Option.some_bind]
  rw [if_pos hsc, writePoint_eq_some _ (by omega)]
  simp only [Option.some_bind]
  rw [writePoint_eq_some _ (by simp [List.length_set]; omega)]
  simp only [Option.some_bind, Option.pure_def, Option.some.injEq, Prod.mk.injEq]
  have es : spanStart inp pOff = inp[pOff] := by
    simp only [spanStart]; exact getD_default_eq h0'
  have ee : spanEnd inp pOff len = inp[pOff + len - 1] := by
    simp only [spanEnd]; exact getD_default_eq hL'
  have hpair : overwrite s.rmem pOff [spanStart inp pOff, spanEnd inp pOff len] =
      (s.rmem.set pOff (spanStart inp pOff)).set (pOff + 1) (spanEnd inp pOff len) := by
    rw [← overwrite_set_cons (spanStart inp pOff) [spanEnd inp pOff len] (by simp; omega),
      overwrite_singleton _ (by simp [List.length_set]; omega)]
  refine ⟨trivial, ?_, trivial⟩
  rw [hpair, es, ee]

theorem solver_spec_divide {s : CPState} {inp : List DVector2D} {pOff len : Nat}
    {eps : ℚ} {metric : DeviationMetric}
    (hlen : 3 ≤ len)
    (hrd : ∀ i, i < len → readPoint s (pOff + i) = inp[pOff + i]?)
    (hb1 : pOff + len ≤ inp.length)
    (hsc : ¬ (spanScanT inp pOff len metric).1 < eps * eps) :
    compactPathSubproblemSolver s pOff len pOff eps metric =
      some (CompactPathResultCode.divide, s, 0, (spanScanT inp pOff len metric).2) := by
  have h0' : pOff < inp.length := by omega
  have hL' : pOff + len - 1 < inp.length := by omega
  have h0 : readPoint s pOff = some inp[pOff] := by
    have hh := hrd 0 (by omega)
    rw [Nat.add_zero] at hh
    rw [hh]
    exact List.getElem?_eq_getElem h0'
  have hL : readPoint s (pOff + len - 1) = some inp[pOff + len - 1] := by
    have hh := hrd (len - 1) (by omega)
    have heq : pOff + (len - 1) = pOff + len - 1 := by omega
    rw [heq] at hh
    rw [hh]
    exact List.getElem?_eq_getElem hL'
  simp only [compactPathSubproblemSolver, if_neg (by omega : ¬ len < 3), h0, hL,
    Option.bind_eq_bind, Option.some_bind]
  rw [deviationScan_eq hrd hb1 hlen h0' hL']
  simp only [Option.some_bind]
  rw [if_neg hsc]
  rfl

/-! Branch equations and structural facts for `rdpContrib`. -/

theorem rdpContrib_small {inp : List DVector2D} {eps : ℚ} {metric : DeviationMetric}
    {off len : Nat} (h : len < 3) :
    rdpContrib inp eps metric off len = some (sliceSpan inp (off + 1) (len - 1)) := by
  rw [rdpContrib, if_pos h]

theorem rdpContrib_lin {inp : List DVector2D} {eps : ℚ} {metric : DeviationMetric}
    {off len : Nat} (h : ¬ len < 3)
    (hsc : (spanScanT inp off len metric).1 < eps * eps) :
    rdpContrib inp eps metric off len = some [inp.getD (off + len - 1) default] := by
  rw [rdpContrib, if_neg h, if_pos hsc]

theorem rdpContrib_div_none {inp : List DVector2D} {eps : ℚ} {metric : DeviationMetric}
    {off len : Nat} (h : ¬ len < 3)
    (hsc : ¬ (spanScanT inp off len metric).1 < eps * eps)
    (hnone : (spanScanT inp off len metric).2 = none) :
    rdpContrib inp eps metric off len = none := by
  rw [rdpContrib, if_neg h, if_neg hsc, hnone]

theorem rdpContrib_div {inp : List DVector2D} {eps : ℚ} {metric : DeviationMetric}
    {off len d : Nat} (h : ¬ len < 3)
    (hsc : ¬ (spanScanT inp off len metric).1 < eps * eps)
    (hd : (spanScanT inp off len metric).2 = some d) :
    rdpContrib inp eps metric off len =
      match rdpContrib inp eps metric off (d + 1),
            rdpContrib inp eps metric (off + d) (len - d) with
      | some l, some r => some (l ++ r)
      | _, _ => none := by
  obtain ⟨hd1, hd2, -⟩ := spanScanT_some hd
  rw [rdpContrib, if_neg h, if_neg hsc, hd]
  exact dif_pos (by omega)

theorem sliceSpan_append (inp : List DVector2D) (a b c : Nat) :
    sliceSpan inp a b ++ sliceSpan inp (a + b) c = sliceSpan inp a (b + c) := by
  simp only [sliceSpan]
  rw [List.take_add, List.drop_drop]

theorem sublist_dropLast : ∀ {l₁ l₂ : List DVector2D}, l₁.Sublist l₂ →
    l₁.dropLast.Sublist l₂.dropLast := by
  intro l₁ l₂ h
  induction h with
  | slnil => simp
  | cons a h ih =>
    rename_i la lb
    cases lb with
    | nil =>
      rw [List.sublist_nil.mp h]
      simp
    | cons b t =>
      rw [List.dropLast_cons₂]
      exact List.Sublist.cons a ih
  | cons₂ a h ih =>
    rename_i la lb
    cases la with
    | nil => simp
    | cons c t =>
      cases lb with
      | nil => exact absurd (List.sublist_nil.mp h) (by simp)
      | cons d u =>
        rw [List.dropLast_cons₂, List.dropLast_cons₂]
        exact List.Sublist.cons₂ a ih

theorem rdpContrib_facts (inp : List DVector2D) (eps : ℚ) (metric : DeviationMetric) :
    ∀ len off l, 2 ≤ len → off + len ≤ inp.length →
      rdpContrib inp eps metric off len = some l →
      1 ≤ l.length ∧ l.length ≤ len - 1 ∧
        l.getLast? = some (inp.getD (off + len - 1) default) ∧
        l.Sublist (sliceSpan inp (off + 1) (len - 1)) := by
  intro len
  induction len using Nat.strong_induction_on with
  | _ len ih =>
    intro off l h2 hb hrdp
    rcases Nat.lt_or_ge len 3 with h3 | h3
    · have hlen2 : len = 2 := by omega
      subst hlen2
      rw [rdpContrib_small (by omega)] at hrdp
      have hl : l = sliceSpan inp (off + 1) 1 := by injection hrdp.symm
      subst hl
      have hlen1 : (sliceSpan inp (off + 1) 1).length = 1 :=
        length_sliceSpan (by omega)
      refine ⟨by omega, by omega, ?_, List.Sublist.refl _⟩
      rw [List.getLast?_eq_getElem?, hlen1, getElem?_sliceSpan (by omega : 1 - 1 < 1)]
      have hidx : off + 1 + (1 - 1) = off + 2 - 1 := by omega
      rw [hidx, getD_default_eq (by omega), List.getElem?_eq_getElem (by omega)]
    · by_cases hsc : (spanScanT inp off len metric).1 < eps * eps
      · rw [rdpContrib_lin (by omega) hsc] at hrdp
        have hl : l = [inp.getD (off + len - 1) default] := by injection hrdp.symm
        subst hl
        refine ⟨by simp, by simp; omega, rfl, ?_⟩
        rw [List.singleton_sublist, List.mem_iff_getElem?]
        refine ⟨len - 2, ?_⟩
        rw [getElem?_sliceSpan (by omega)]
        have hidx : off + 1 + (len - 2) = off + len - 1 := by omega
        rw [hidx, getD_default_eq (by omega), List.getElem?_eq_getElem (by omega)]
      · cases hopt : (spanScanT inp off len metric).2 with
        | none =>
          rw [rdpContrib_div_none (by omega) hsc hopt] at hrdp
          exact absurd hrdp (by simp)
        | some d =>
          obtain ⟨hd1, hd2, -⟩ := spanScanT_some hopt
          rw [rdpContrib_div (by omega) hsc hopt] at hrdp
          cases hrec1 : rdpContrib inp eps metric off (d + 1) with
          | none => rw [hrec1] at hrdp; exact absurd hrdp (by simp)
          | some l1 =>
            cases hrec2 : rdpContrib inp eps metric (off + d) (len - d) with
            | none => rw [hrec1, hrec2] at hrdp; exact absurd hrdp (by simp)
            | some l2 =>
              rw [hrec1, hrec2] at hrdp
              have hl : l = l1 ++ l2 := by injection hrdp.symm
              subst hl
              obtain ⟨ha1, ha2, ha3, ha4⟩ := ih (d + 1) (by omega) off l1 (by omega)
                (by omega) hrec1
              obtain ⟨hb1', hb2', hb3', hb4'⟩ := ih (len - d) (by omega) (off + d) l2
                (by omega) (by omega) hrec2
              refine ⟨?_, ?_, ?_, ?_⟩
              · simp only [List.length_append]; omega
              · simp only [List.length_append]; omega
              · rw [List.getLast?_append, hb3']
                have hidx : off + d + (len - d) - 1 = off + len - 1 := by omega
                rw [hidx]
                rfl
              · have hsplit : sliceSpan inp (off + 1) (len - 1) =
                    sliceSpan inp (off + 1) d ++ sliceSpan inp (off + 1 + d) (len - 1 - d) := by
                  rw [sliceSpan_append]
                  congr 1
                  omega
                rw [hsplit]
                apply List.Sublist.append
                · have : d + 1 - 1 = d := by omega
                  rw [this] at ha4
                  exact ha4
                · have he1 : off + d + 1 = off + 1 + d := by omega
                  have he2 : len - d - 1 = len - 1 - d := by omega
                  rw [he1, he2] at hb4'
                  exact hb4'

/-! Driver-loop invariant helpers. -/

theorem take_one_drop {l : List α} {k : Nat} (h : k < l.length) :
    (l.drop k).take 1 = [l[k]] := by
  rw [List.drop_eq_getElem_cons h, List.take_succ_cons, List.take_zero]

theorem stackOK_le (n : Nat) :
    ∀ stk start, StackOK n start stk → start + 1 ≤ n := by
  intro stk
  induction stk with
  | nil =>
    intro start h
    have heq : start + 1 = n := h
    omega
  | cons c rest ih =>
    intro start h
    obtain ⟨-, -, hlen, hrest⟩ := h
    have := ih (start + c.len - 1) hrest
    omega

theorem agreesFrom_update {s : CPState} {inp r' : List DVector2D} {start start' : Nat}
    (hag : AgreesFrom s inp start) (hsub : start ≤ start')
    (hsame : ∀ i, start' ≤ i → r'[i]? = s.rmem[i]? ∨ r'[i]? = inp[i]?) :
    AgreesFrom { s with rmem := r' } inp start' := by
  intro i hi
  have hrp : readPoint { s with rmem := r' } i =
      if s.aliased then r'[i]? else s.pmem[i]? := rfl
  have hrp2 : readPoint s i = if s.aliased then s.rmem[i]? else s.pmem[i]? := rfl
  by_cases hs : s.aliased
  · rw [hrp, if_pos hs]
    rcases hsame i hi with hcase | hcase
    · rw [hcase]
      have hold := hag i (le_trans hsub hi)
      rw [hrp2, if_pos hs] at hold
      exact hold
    · exact hcase
  · rw [hrp, if_neg hs]
    have hold := hag i (le_trans hsub hi)
    rw [hrp2, if_neg hs] at hold
    exact hold

theorem take_overwrite_succ {l vs : List α} {i : Nat}
    (h3 : i + vs.length ≤ l.length) (hne : 0 < vs.length)
    (hv : vs[0]? = l[i]?) : (overwrite l i vs).take (i + 1) = l.take (i + 1) := by
  apply List.ext_getElem?
  intro j
  rw [List.getElem?_take, List.getElem?_take]
  by_cases hj : j < i + 1
  · rw [if_pos hj, if_pos hj]
    rcases Nat.lt_or_ge j i with hji | hji
    · exact getElem?_overwrite_lt hji (by omega)
    · have hji2 : j = i := by omega
      subst hji2
      rw [getElem?_overwrite_mem (Nat.le_refl _) (by omega) (by omega), Nat.sub_self, hv]
  · rw [if_neg hj, if_neg hj]

/-! Single-iteration reductions of the driver loop. -/

theorem cpLoop_consume_step (eps : ℚ) (metric : DeviationMetric) (fuel cr cl : Nat)
    (rest : List CompactPathSubproblemCall) (s : CPState) (r1 : List DVector2D)
    (solved rlen : Nat) (code : CompactPathResultCode) (dIdx : Option Nat)
    (hsolver : compactPathSubproblemSolver s cr cl cr eps metric =
      some (code, { s with rmem := r1 }, rlen, dIdx))
    (hcode : code ≠ CompactPathResultCode.divide)
    (hrlen : rlen ≠ 0)
    (hsrc : cr + 1 + (rlen - 1) ≤ r1.length)
    (hdst : solved + (rlen - 1) ≤ r1.length) :
    compactPathLoop eps metric (fuel + 1) (⟨cr, cr, cl⟩ :: rest) s solved =
      compactPathLoop eps metric fuel rest
        { s with rmem := overwrite r1 solved ((r1.drop (cr + 1)).take (rlen - 1)) }
        (solved + (rlen - 1)) := by
  simp only [compactPathLoop]
  rw [hsolver]
  cases code with
  | divide => exact absurd rfl hcode
  | linearize =>
    dsimp only
    rw [if_neg hrlen, memmoveR_eq_some hsrc hdst]
  | solved =>
    dsimp only
    rw [if_neg hrlen, memmoveR_eq_some hsrc hdst]

theorem cpLoop_divide_step (eps : ℚ) (metric : DeviationMetric) (fuel cr cl : Nat)
    (rest : List CompactPathSubproblemCall) (s : CPState) (solved d : Nat)
    (hsolver : compactPathSubproblemSolver s cr cl cr eps metric =
      some (CompactPathResultCode.divide, s, 0, some d))
    (hd : ¬ (d ≤ 0 ∨ d ≥ cl)) :
    compactPathLoop eps metric (fuel + 1) (⟨cr, cr, cl⟩ :: rest) s solved =
      compactPathLoop eps metric fuel
        (⟨cr, cr, d + 1⟩ :: ⟨cr + d, cr + d, cl - d⟩ :: rest) s solved := by
  simp only [compactPathLoop]
  rw [hsolver]
  dsimp only
  rw [if_neg hd]

theorem cpLoop_divide_none_step (eps : ℚ) (metric : DeviationMetric) (fuel cr cl : Nat)
    (rest : List CompactPathSubproblemCall) (s : CPState) (solved : Nat)
    (hsolver : compactPathSubproblemSolver s cr cl cr eps metric =
      some (CompactPathResultCode.divide, s, 0, none)) :
    compactPathLoop eps metric (fuel + 1) (⟨cr, cr, cl⟩ :: rest) s solved =
      CPOutcome.ub := by
  simp only [compactPathLoop]
  rw [hsolver]

/-- Soundness of the driver loop: a successful run resolves every
stacked span to its functional contribution, appending the concatenation
of the contributions after the already-solved output prefix. -/
theorem cpLoop_sound (inp : List DVector2D) (eps : ℚ) (metric : DeviationMetric) :
    ∀ fuel stk s solved start res len,
      AgreesFrom s inp start →
      StackOK inp.length start stk →
      inp.length ≤ s.rmem.length →
      1 ≤ solved → solved ≤ start + 1 →
      s.rmem[solved - 1]? = inp[start]? →
      compactPathLoop eps metric fuel stk s solved = CPOutcome.success res len →
      ∃ ls, stk.mapM (fun c => rdpContrib inp eps metric c.pOff c.len) = some ls ∧
        len = solved + (ls.map List.length).sum ∧
        res.take len = s.rmem.take solved ++ ls.flatten := by
  intro fuel
  induction fuel with
  | zero =>
    intro stk s solved start res len _ _ _ _ _ _ hloop
    exact absurd hloop (by simp [compactPathLoop])
  | succ fuel ih =>
    intro stk s solved start res len hag hstk hcap hs1 hs2 hlast hloop
    cases stk with
    | nil =>
      have heq : CPOutcome.success s.rmem solved = CPOutcome.success res len := hloop
      have hres : res = s.rmem := by injection heq with h1 h2; exact h1.symm
      have hlen : len = solved := by injection heq with h1 h2; exact h2.symm
      refine ⟨[], rfl, by simp [hlen], ?_⟩
      subst hres hlen
      simp
    | cons c rest =>
      obtain ⟨cp, cr, cl⟩ := c
      obtain ⟨hc1, hc2, hclen, hrest⟩ := hstk
      dsimp only at hc1 hc2 hclen hrest
      subst hc1
      subst hc2
      have hn := stackOK_le inp.length rest (cr + cl - 1) hrest
      have hbound : cr + cl ≤ inp.length := by omega
      have hrd : ∀ i, i < cl → readPoint s (cr + i) = inp[cr + i]? :=
        fun i hi => hag (cr + i) (by omega)
      rcases Nat.lt_or_ge cl 3 with h3 | h3
      · -- the span has exactly 2 points and is copied verbatim
        have hcl2 : cl = 2 := by omega
        subst hcl2
        have hsolver := @solver_spec_small s inp cr 2 eps metric
          (by omega) hrd hbound (by omega)
        set r1 : List DVector2D := overwrite s.rmem cr (sliceSpan inp cr 2) with hr1
        have hslice2 : (sliceSpan inp cr 2).length = 2 := length_sliceSpan (by omega)
        have hr1len : r1.length = s.rmem.length := length_overwrite (by omega)
        have hstep := cpLoop_consume_step eps metric fuel cr 2 rest s r1 solved 2
          CompactPathResultCode.solved none hsolver (by simp) (by omega)
          (by omega) (by omega)
        rw [hstep] at hloop
        simp only [show (2 : Nat) - 1 = 1 from rfl] at hloop
        have hv1 : r1[cr + 1]? = some inp[cr + 1] := by
          rw [hr1, getElem?_overwrite_mem (by omega) (by omega) (by omega)]
          have hi : cr + 1 - cr = 1 := by omega
          rw [hi, getElem?_sliceSpan (by omega), List.getElem?_eq_getElem (by omega)]
        have hvals : (r1.drop (cr + 1)).take 1 = [inp[cr + 1]] := by
          rw [take_one_drop (by omega)]
          have hv1' := hv1
          rw [List.getElem?_eq_getElem (by omega)] at hv1'
          injection hv1' with hh
          rw [hh]
        rw [hvals] at hloop
        set r2 : List DVector2D := overwrite r1 solved [inp[cr + 1]] with hr2
        have hr2len : r2.length = s.rmem.length := by
          rw [hr2, length_overwrite (by simp; omega), hr1len]
        have hr1take : r1.take solved = s.rmem.take solved := by
          rcases Nat.lt_or_ge solved (cr + 1) with hso | hso
          · rw [hr1]; exact take_overwrite_le (by omega) (by omega)
          · have hsoeq : solved = cr + 1 := by omega
            rw [hsoeq, hr1]
            apply take_overwrite_succ (by omega) (by omega)
            rw [getElem?_sliceSpan (by omega)]
            have hz : cr + 0 = cr := by omega
            rw [hz, ← hlast]
            congr 1
            omega
        have ihres := ih rest { s with rmem := r2 } (solved + 1) (cr + 1) res len
          (by
            apply agreesFrom_update hag (by omega)
            intro i hi
            rcases Nat.lt_or_ge i (cr + 2) with hi2 | hi2
            · have hieq : i = cr + 1 := by omega
              subst hieq
              right
              rcases Nat.lt_or_ge solved (cr + 1) with hso | hso
              · rw [hr2, getElem?_overwrite_ge (by simp; omega) (by omega), hr1,
                  getElem?_overwrite_mem (by omega) (by omega) (by omega)]
                have hi3 : cr + 1 - cr = 1 := by omega
                rw [hi3, getElem?_sliceSpan (by omega)]
              · have hsoeq : solved = cr + 1 := by omega
                rw [hr2, getElem?_overwrite_mem (by omega) (by simp; omega)
                  (by rw [hr1len]; omega), hsoeq, Nat.sub_self]
                rw [List.getElem?_eq_getElem (n := cr + 1) (by omega)]
                rfl
            · left
              rw [hr2, getElem?_overwrite_ge (by simp; omega) (by rw [hr1len]; omega), hr1,
                getElem?_overwrite_ge (by omega) (by omega)])
          (by
            have hz : cr + 2 - 1 = cr + 1 := by omega
            rw [← hz]
            exact hrest)
          (by rw [hr2len]; omega)
          (by omega) (by omega)
          (by
            have hz : solved + 1 - 1 = solved := by omega
            rw [hz, hr2, getElem?_overwrite_mem (by omega) (by simp)
              (by rw [hr1len]; omega), Nat.sub_self]
            rw [List.getElem?_eq_getElem (n := cr + 1) (by omega)]
            rfl)
          hloop
        obtain ⟨ls, hmap, hlen, htake⟩ := ihres
        refine ⟨sliceSpan inp (cr + 1) 1 :: ls, ?_, ?_, ?_⟩
        · rw [List.mapM_cons]
          dsimp only
          rw [rdpContrib_small (by omega), hmap]
          rfl
        · have hs1len : (sliceSpan inp (cr + 1) 1).length = 1 :=
            length_sliceSpan (by omega)
          simp only [List.map_cons, List.sum_cons, hs1len]
          omega
        · have hslice1 : sliceSpan inp (cr + 1) 1 = [inp[cr + 1]] := by
            rw [sliceSpan, take_one_drop (by omega)]
          have hr2take : r2.take (solved + 1) = s.rmem.take solved ++ [inp[cr + 1]] := by
            rw [hr2]
            have hfull := @take_overwrite_full _ r1 [inp[cr + 1]] solved
              (by simp; omega)
            simp only [List.length_cons, List.length_nil] at hfull
            rw [hfull, hr1take]
          rw [htake]
          dsimp only
          rw [hr2take, hslice1]
          simp
      · by_cases hsc : (spanScanT inp cr cl metric).1 < eps * eps
        · -- linearize: only the anchors survive
          have hsolver := solver_spec_linearize (by omega) hrd hbound (by omega) hsc
          set r1 : List DVector2D :=
            overwrite s.rmem cr [spanStart inp cr, spanEnd inp cr cl] with hr1
          have hr1len : r1.length = s.rmem.length := length_overwrite (by simp; omega)
          have hstep := cpLoop_consume_step eps metric fuel cr cl rest s r1 solved 2
            CompactPathResultCode.linearize none hsolver (by simp) (by omega)
            (by omega) (by omega)
          rw [hstep] at hloop
          simp only [show (2 : Nat) - 1 = 1 from rfl] at hloop
          have hends : spanEnd inp cr cl = inp[cr + cl - 1] := by
            simp only [spanEnd]; exact getD_default_eq (by omega)
          have hstarts : spanStart inp cr = inp[cr] := by
            simp only [spanStart]; exact getD_default_eq (by omega)
          have hv1 : r1[cr + 1]? = some inp[cr + cl - 1] := by
            rw [hr1, getElem?_overwrite_mem (by omega)
              (by simp only [List.length_cons, List.length_nil]; omega) (by omega)]
            have hi : cr + 1 - cr = 1 := by omega
            rw [hi, ← hends]
            rfl
          have hvals : (r1.drop (cr + 1)).take 1 = [inp[cr + cl - 1]] := by
            rw [take_one_drop (by rw [hr1len]; omega)]
            rw [List.getElem?_eq_getElem (by rw [hr1len]; omega)] at hv1
            injection hv1 with hh
            rw [hh]
          rw [hvals] at hloop
          set r2 : List DVector2D := overwrite r1 solved [inp[cr + cl - 1]] with hr2
          have hr2len : r2.length = s.rmem.length := by
            rw [hr2, length_overwrite (by simp; omega), hr1len]
          have hr1take : r1.take solved = s.rmem.take solved := by
            rcases Nat.lt_or_ge solved (cr + 1) with hso | hso
            · rw [hr1]; exact take_overwrite_le (by omega) (by omega)
            · have hsoeq : solved = cr + 1 := by omega
              rw [hsoeq, hr1]
              apply take_overwrite_succ (by simp only [List.length_cons, List.length_nil]; omega)
                (by simp)
              show some (spanStart inp cr) = s.rmem[cr]?
              rw [hstarts, ← List.getElem?_eq_getElem (l := inp) (n := cr) (by omega), ← hlast]
              congr 1
              omega
          have ihres := ih rest { s with rmem := r2 } (solved + 1) (cr + cl - 1) res len
            (by
              apply agreesFrom_update hag (by omega)
              intro i hi
              left
              rw [hr2, getElem?_overwrite_ge (by simp only [List.length_cons, List.length_nil]; omega)
                (by rw [hr1len]; omega), hr1,
                getElem?_overwrite_ge (by simp only [List.length_cons, List.length_nil]; omega)
                (by omega)])
            hrest
            (by rw [hr2len]; omega)
            (by omega) (by omega)
            (by
              have hz : solved + 1 - 1 = solved := by omega
              rw [hz, hr2, getElem?_overwrite_mem (by omega) (by simp)
                (by rw [hr1len]; omega), Nat.sub_self]
              rw [List.getElem?_eq_getElem (n := cr + cl - 1) (by omega)]
              rfl)
            hloop
          obtain ⟨ls, hmap, hlen, htake⟩ := ihres
          refine ⟨[inp.getD (cr + cl - 1) default] :: ls, ?_, ?_, ?_⟩
          · rw [List.mapM_cons]
            dsimp only
            rw [rdpContrib_lin (by omega) hsc, hmap]
            rfl
          · simp only [List.map_cons, List.sum_cons, List.length_cons, List.length_nil]
            omega
          · have hgd : inp.getD (cr + cl - 1) default = inp[cr + cl - 1] :=
              getD_default_eq (by omega)
            have hr2take : r2.take (solved + 1) =
                s.rmem.take solved ++ [inp[cr + cl - 1]] := by
              rw [hr2]
              have hfull := @take_overwrite_full _ r1 [inp[cr + cl - 1]]
                solved (by simp; omega)
              simp only [List.length_cons, List.length_nil] at hfull
              rw [hfull, hr1take]
            rw [htake]
            dsimp only
            rw [hr2take, hgd]
            simp
        · -- divide
          cases hopt : (spanScanT inp cr cl metric).2 with
          | none =>
            have hsolver := solver_spec_divide (by omega) hrd hbound hsc
            rw [hopt] at hsolver
            rw [cpLoop_divide_none_step eps metric fuel cr cl rest s solved hsolver] at hloop
            exact absurd hloop (by simp)
          | some d =>
            obtain ⟨hd1, hd2, -⟩ := spanScanT_some hopt
            have hsolver := solver_spec_divide (by omega) hrd hbound hsc
            rw [hopt] at hsolver
            rw [cpLoop_divide_step eps metric fuel cr cl rest s solved d hsolver
              (by omega)] at hloop
            have hstk' : StackOK inp.length cr
                (⟨cr, cr, d + 1⟩ :: ⟨cr + d, cr + d, cl - d⟩ :: rest) := by
              refine ⟨rfl, rfl, by show 2 ≤ d + 1; omega, ?_⟩
              refine ⟨by show cr + d = cr + (d + 1) - 1; omega,
                by show cr + d = cr + (d + 1) - 1; omega, by show 2 ≤ cl - d; omega, ?_⟩
              have hz : cr + (d + 1) - 1 + (cl - d) - 1 = cr + cl - 1 := by omega
              rw [hz]
              exact hrest
            have ihres := ih (⟨cr, cr, d + 1⟩ :: ⟨cr + d, cr + d, cl - d⟩ :: rest)
              s solved cr res len hag hstk' hcap hs1 hs2 hlast hloop
            obtain ⟨ls, hmap, hlen, htake⟩ := ihres
            simp only [List.mapM_cons, Option.bind_eq_bind, Option.bind_eq_some,
              Option.pure_def, Option.some.injEq] at hmap
            obtain ⟨la, hla, lb, ⟨lb1, hlb1, lrest, hlrest, hlbeq⟩, heqls⟩ := hmap
            subst hlbeq
            subst heqls
            refine ⟨(la ++ lb1) :: lrest, ?_, ?_, ?_⟩
            · rw [List.mapM_cons]
              dsimp only
              rw [rdpContrib_div (by omega) hsc hopt, hla, hlb1, hlrest]
              rfl
            · rw [hlen]
              simp only [List.map_cons, List.sum_cons, List.length_append]
              omega
            · rw [htake]
              simp only [List.flatten_cons, List.append_assoc]

/-- Completeness of the driver loop for one span: if the functional
recursion resolves the span, the loop consumes it in a bounded number of
iterations, writing exactly the span's contribution, for any fuel and
any remaining stack. -/
theorem cpLoop_complete (inp : List DVector2D) (eps : ℚ) (metric : DeviationMetric) :
    ∀ cl, ∀ cr rest s solved l,
      AgreesFrom s inp cr →
      2 ≤ cl → cr + cl ≤ inp.length →
      inp.length ≤ s.rmem.length →
      1 ≤ solved → solved ≤ cr + 1 →
      s.rmem[solved - 1]? = inp[cr]? →
      rdpContrib inp eps metric cr cl = some l →
      ∃ k s', k ≤ 2 * cl - 3 ∧
        (∀ fuel, compactPathLoop eps metric (fuel + k) (⟨cr, cr, cl⟩ :: rest) s solved =
          compactPathLoop eps metric fuel rest s' (solved + l.length)) ∧
        s'.pmem = s.pmem ∧ s'.aliased = s.aliased ∧
        s'.rmem.length = s.rmem.length ∧
        s'.rmem.take (solved + l.length) = s.rmem.take solved ++ l ∧
        AgreesFrom s' inp (cr + cl - 1) ∧
        s'.rmem[solved + l.length - 1]? = inp[cr + cl - 1]? := by
  intro cl
  induction cl using Nat.strong_induction_on with
  | _ cl ih =>
    intro cr rest s solved l hag hclen hbound hcap hs1 hs2 hlast hrdp
    have hrd : ∀ i, i < cl → readPoint s (cr + i) = inp[cr + i]? :=
      fun i hi => hag (cr + i) (by omega)
    rcases Nat.lt_or_ge cl 3 with h3 | h3
    · -- two-point span, solved verbatim
      have hcl2 : cl = 2 := by omega
      subst hcl2
      rw [rdpContrib_small (by omega)] at hrdp
      have hl : l = sliceSpan inp (cr + 1) 1 := by injection hrdp.symm
      have hllen : l.length = 1 := by rw [hl]; exact length_sliceSpan (by omega)
      have hlval : l = [inp[cr + 1]] := by
        rw [hl, sliceSpan, take_one_drop (by omega)]
      have hsolver := @solver_spec_small s inp cr 2 eps metric
        (by omega) hrd hbound (by omega)
      set r1 : List DVector2D := overwrite s.rmem cr (sliceSpan inp cr 2) with hr1
      have hslice2 : (sliceSpan inp cr 2).length = 2 := length_sliceSpan (by omega)
      have hr1len : r1.length = s.rmem.length := length_overwrite (by omega)
      have hv1 : r1[cr + 1]? = some inp[cr + 1] := by
        rw [hr1, getElem?_overwrite_mem (by omega) (by omega) (by omega)]
        have hi : cr + 1 - cr = 1 := by omega
        rw [hi, getElem?_sliceSpan (by omega), List.getElem?_eq_getElem (by omega)]
      have hvals : (r1.drop (cr + 1)).take 1 = [inp[cr + 1]] := by
        rw [take_one_drop (by omega)]
        have hv1' := hv1
        rw [List.getElem?_eq_getElem (by omega)] at hv1'
        injection hv1' with hh
        rw [hh]
      set r2 : List DVector2D := overwrite r1 solved [inp[cr + 1]] with hr2
      have hr2len : r2.length = s.rmem.length := by
        rw [hr2, length_overwrite (by simp only [List.length_cons, List.length_nil]; omega),
          hr1len]
      have hr1take : r1.take solved = s.rmem.take solved := by
        rcases Nat.lt_or_ge solved (cr + 1) with hso | hso
        · rw [hr1]; exact take_overwrite_le (by omega) (by omega)
        · have hsoeq : solved = cr + 1 := by omega
          rw [hsoeq, hr1]
          apply take_overwrite_succ (by omega) (by omega)
          rw [getElem?_sliceSpan (by omega)]
          have hz : cr + 0 = cr := by omega
          rw [hz, ← hlast]
          congr 1
          omega
      refine ⟨1, { s with rmem := r2 }, by omega, ?_, rfl, rfl, ?_, ?_, ?_, ?_⟩
      · intro fuel
        have hstep := cpLoop_consume_step eps metric fuel cr 2 rest s r1 solved 2
          CompactPathResultCode.solved none hsolver (by simp) (by omega)
          (by omega) (by omega)
        rw [hstep]
        simp only [show (2 : Nat) - 1 = 1 from rfl]
        rw [hvals, hllen]
      · exact hr2len
      · rw [hllen, hlval]
        show r2.take (solved + 1) = s.rmem.take solved ++ [inp[cr + 1]]
        rw [hr2]
        have hfull := @take_overwrite_full _ r1 [inp[cr + 1]] solved
          (by simp only [List.length_cons, List.length_nil]; omega)
        simp only [List.length_cons, List.length_nil] at hfull
        rw [hfull, hr1take]
      · show AgreesFrom { s with rmem := r2 } inp (cr + 2 - 1)
        have hz : cr + 2 - 1 = cr + 1 := by omega
        rw [hz]
        apply agreesFrom_update hag (by omega)
        intro i hi
        rcases Nat.lt_or_ge i (cr + 2) with hi2 | hi2
        · have hieq : i = cr + 1 := by omega
          subst hieq
          right
          rcases Nat.lt_or_ge solved (cr + 1) with hso | hso
          · rw [hr2, getElem?_overwrite_ge
              (by simp only [List.length_cons, List.length_nil]; omega) (by omega), hr1,
              getElem?_overwrite_mem (by omega) (by omega) (by omega)]
            have hi3 : cr + 1 - cr = 1 := by omega
            rw [hi3, getElem?_sliceSpan (by omega)]
          · have hsoeq : solved = cr + 1 := by omega
            rw [hr2, getElem?_overwrite_mem (by omega)
              (by simp only [List.length_cons, List.length_nil]; omega)
              (by rw [hr1len]; omega), hsoeq, Nat.sub_self]
            rw [List.getElem?_eq_getElem (n := cr + 1) (by omega)]
            rfl
        · left
          rw [hr2, getElem?_overwrite_ge
            (by simp only [List.length_cons, List.length_nil]; omega)
            (by rw [hr1len]; omega), hr1, getElem?_overwrite_ge (by omega) (by omega)]
      · rw [hllen]
        have hz : solved + 1 - 1 = solved := by omega
        rw [hz]
        show r2[solved]? = inp[cr + 2 - 1]?
        rw [hr2, getElem?_overwrite_mem (by omega) (by simp)
          (by rw [hr1len]; omega), Nat.sub_self]
        have hz2 : cr + 2 - 1 = cr + 1 := by omega
        rw [hz2, List.getElem?_eq_getElem (n := cr + 1) (by omega)]
        rfl
    · by_cases hsc : (spanScanT inp cr cl metric).1 < eps * eps
      · -- linearize
        rw [rdpContrib_lin (by omega) hsc] at hrdp
        have hl : l = [inp.getD (cr + cl - 1) default] := by injection hrdp.symm
        have hgd : inp.getD (cr + cl - 1) default = inp[cr + cl - 1] :=
          getD_default_eq (by omega)
        have hllen : l.length = 1 := by rw [hl]; rfl
        have hlval : l = [inp[cr + cl - 1]] := by rw [hl, hgd]
        have hsolver := solver_spec_linearize (by omega) hrd hbound (by omega) hsc
        set r1 : List DVector2D :=
          overwrite s.rmem cr [spanStart inp cr, spanEnd inp cr cl] with hr1
        have hr1len : r1.length = s.rmem.length :=
          length_overwrite (by simp only [List.length_cons, List.length_nil]; omega)
        have hends : spanEnd inp cr cl = inp[cr + cl - 1] := by
          simp only [spanEnd]; exact getD_default_eq (by omega)
        have hstarts : spanStart inp cr = inp[cr] := by
          simp only [spanStart]; exact getD_default_eq (by omega)
        have hv1 : r1[cr + 1]? = some inp[cr + cl - 1] := by
          rw [hr1, getElem?_overwrite_mem (by omega)
            (by simp only [List.length_cons, List.length_nil]; omega) (by omega)]
          have hi : cr + 1 - cr = 1 := by omega
          rw [hi, ← hends]
          rfl
        have hvals : (r1.drop (cr + 1)).take 1 = [inp[cr + cl - 1]] := by
          rw [take_one_drop (by rw [hr1len]; omega)]
          rw [List.getElem?_eq_getElem (by rw [hr1len]; omega)] at hv1
          injection hv1 with hh
          rw [hh]
        set r2 : List DVector2D := overwrite r1 solved [inp[cr + cl - 1]] with hr2
        have hr2len : r2.length = s.rmem.length := by
          rw [hr2, length_overwrite (by simp only [List.length_cons, List.length_nil]; omega),
            hr1len]
        have hr1take : r1.take solved = s.rmem.take solved := by
          rcases Nat.lt_or_ge solved (cr + 1) with hso | hso
          · rw [hr1]; exact take_overwrite_le (by omega) (by omega)
          · have hsoeq : solved = cr + 1 := by omega
            rw [hsoeq, hr1]
            apply take_overwrite_succ (by simp only [List.length_cons, List.length_nil]; omega)
              (by simp)
            show some (spanStart inp cr) = s.rmem[cr]?
            rw [hstarts, ← List.getElem?_eq_getElem (l := inp) (n := cr) (by omega), ← hlast]
            congr 1
            omega
        refine ⟨1, { s with rmem := r2 }, by omega, ?_, rfl, rfl, ?_, ?_, ?_, ?_⟩
        · intro fuel
          have hstep := cpLoop_consume_step eps metric fuel cr cl rest s r1 solved 2
            CompactPathResultCode.linearize none hsolver (by simp) (by omega)
            (by omega) (by omega)
          rw [hstep]
          simp only [show (2 : Nat) - 1 = 1 from rfl]
          rw [hvals, hllen]
        · exact hr2len
        · rw [hllen, hlval]
          show r2.take (solved + 1) = s.rmem.take solved ++ [inp[cr + cl - 1]]
          rw [hr2]
          have hfull := @take_overwrite_full _ r1 [inp[cr + cl - 1]] solved
            (by simp only [List.length_cons, List.length_nil]; omega)
          simp only [List.length_cons, List.length_nil] at hfull
          rw [hfull, hr1take]
        · apply agreesFrom_update hag (by omega)
          intro i hi
          left
          rw [hr2, getElem?_overwrite_ge
            (by simp only [List.length_cons, List.length_nil]; omega)
            (by rw [hr1len]; omega), hr1,
            getElem?_overwrite_ge (by simp only [List.length_cons, List.length_nil]; omega)
            (by omega)]
        · rw [hllen]
          have hz : solved + 1 - 1 = solved := by omega
          rw [hz]
          show r2[solved]? = inp[cr + cl - 1]?
          rw [hr2, getElem?_overwrite_mem (by omega) (by simp)
            (by rw [hr1len]; omega), Nat.sub_self]
          rw [List.getElem?_eq_getElem (n := cr + cl - 1) (by omega)]
          rfl
      · -- divide
        cases hopt : (spanScanT inp cr cl metric).2 with
        | none =>
          rw [rdpContrib_div_none (by omega) hsc hopt] at hrdp
          exact absurd hrdp (by simp)
        | some d =>
          obtain ⟨hd1, hd2, -⟩ := spanScanT_some hopt
          rw [rdpContrib_div (by omega) hsc hopt] at hrdp
          cases hla : rdpContrib inp eps metric cr (d + 1) with
          | none => rw [hla] at hrdp; exact absurd hrdp (by simp)
          | some la =>
            cases hlb : rdpContrib inp eps metric (cr + d) (cl - d) with
            | none => rw [hla, hlb] at hrdp; exact absurd hrdp (by simp)
            | some lb =>
              rw [hla, hlb] at hrdp
              have hl : l = la ++ lb := by injection hrdp.symm
              subst hl
              obtain ⟨hla1, hla2, -, -⟩ :=
                rdpContrib_facts inp eps metric (d + 1) cr la (by omega) (by omega) hla
              obtain ⟨hlb1, hlb2, -, -⟩ :=
                rdpContrib_facts inp eps metric (cl - d) (cr + d) lb (by omega)
                  (by omega) hlb
              have hsolver := solver_spec_divide (by omega) hrd hbound hsc
              rw [hopt] at hsolver
              obtain ⟨k1, s1, hk1, hloop1, hp1, hal1, hlen1, htake1, hag1, hlast1⟩ :=
                ih (d + 1) (by omega) cr (⟨cr + d, cr + d, cl - d⟩ :: rest) s solved la
                  hag (by omega) (by omega) hcap hs1 hs2 hlast hla
              have hagd : AgreesFrom s1 inp (cr + d) := by
                have hz : cr + (d + 1) - 1 = cr + d := by omega
                rw [hz] at hag1
                exact hag1
              have hlastd : s1.rmem[solved + la.length - 1]? = inp[cr + d]? := by
                have hz : cr + (d + 1) - 1 = cr + d := by omega
                rw [hz] at hlast1
                exact hlast1
              obtain ⟨k2, s2, hk2, hloop2, hp2, hal2, hlen2, htake2, hag2, hlast2⟩ :=
                ih (cl - d) (by omega) (cr + d) rest s1 (solved + la.length) lb
                  hagd (by omega) (by omega) (by omega) (by omega) (by omega) hlastd hlb
              refine ⟨1 + k1 + k2, s2, by omega, ?_, by rw [hp2, hp1],
                by rw [hal2, hal1], by rw [hlen2, hlen1], ?_, ?_, ?_⟩
              · intro fuel
                have he1 : fuel + (1 + k1 + k2) = fuel + k2 + k1 + 1 := by omega
                rw [he1, cpLoop_divide_step eps metric (fuel + k2 + k1) cr cl rest s solved d
                  hsolver (by omega), hloop1 (fuel + k2), hloop2 fuel]
                congr 1
                simp only [List.length_append]
                omega
              · rw [htake1] at htake2
                simp only [List.length_append]
                have hz : solved + (la.length + lb.length) = solved + la.length + lb.length := by
                  omega
                rw [hz, htake2, List.append_assoc]
              · have hz : cr + d + (cl - d) - 1 = cr + cl - 1 := by omega
                rw [hz] at hag2
                exact hag2
              · have hz : cr + d + (cl - d) - 1 = cr + cl - 1 := by omega
                rw [hz] at hlast2
                simp only [List.length_append]
                have hz2 : solved + (la.length + lb.length) =
                    solved + la.length + lb.length := by omega
                rw [hz2]
                exact hlast2

/-! Top-level corollaries for `runCompactPath` and
`runCompactPathAliased`. -/

theorem set_self_getElem (l : List DVector2D) (i : Nat) (h : i < l.length) :
    l.set i l[i] = l := by
  apply List.ext_getElem?
  intro n
  by_cases hin : i = n
  · subst hin
    rw [List.getElem?_set_self h, List.getElem?_eq_getElem h]
  · rw [List.getElem?_set_ne hin]

theorem take_set_zero {l : List DVector2D} {v : DVector2D} (h : 0 < l.length) :
    (l.set 0 v).take 1 = [v] := by
  have h1 : 0 < (l.set 0 v).length := by rw [List.length_set]; omega
  have h0 : (l.set 0 v)[0]? = some v := List.getElem?_set_self h
  rw [← List.drop_zero (l.set 0 v), take_one_drop h1]
  rw [List.getElem?_eq_getElem h1] at h0
  injection h0 with hh
  rw [hh]

theorem take_one_of_pos {l : List DVector2D} (h : 0 < l.length) : l.take 1 = [l[0]] := by
  rw [List.take_succ, List.take_zero, List.getElem?_eq_getElem h]
  rfl

/-- Unfolding of a `runCompactPath` call up to the loop, for an input
with at least one point. -/
theorem runCompactPath_eq_loop (inp rinit : List DVector2D) (eps : ℚ)
    (metric : DeviationMetric) (h1 : 1 ≤ inp.length) (hcap : inp.length ≤ rinit.length) :
    runCompactPath inp rinit eps metric =
      compactPathLoop eps metric (2 * inp.length + 2)
        [⟨0, 0, inp.length⟩]
        { pmem := inp, rmem := rinit.set 0 inp[0], aliased := false } 1 := by
  rw [runCompactPath, compactPath]
  have hrd : readPoint { pmem := inp, rmem := rinit, aliased := false } 0 = some inp[0] := by
    show inp[0]? = some inp[0]
    exact List.getElem?_eq_getElem (by omega)
  rw [hrd]
  dsimp only
  rw [writePoint_eq_some _ (by show 0 < rinit.length; omega)]

theorem runCompactPathAliased_eq_loop (inp : List DVector2D) (eps : ℚ)
    (metric : DeviationMetric) (h1 : 1 ≤ inp.length) :
    runCompactPathAliased inp eps metric =
      compactPathLoop eps metric (2 * inp.length + 2)
        [⟨0, 0, inp.length⟩]
        { pmem := [], rmem := inp, aliased := true } 1 := by
  rw [runCompactPathAliased, compactPath]
  have hrd : readPoint { pmem := [], rmem := inp, aliased := true } 0 = some inp[0] := by
    show inp[0]? = some inp[0]
    exact List.getElem?_eq_getElem (by omega)
  rw [hrd]
  dsimp only
  rw [writePoint_eq_some _ (by show 0 < inp.length; omega)]
  have hset : inp.set 0 inp[0] = inp := set_self_getElem inp 0 (by omega)
  rw [hset]

theorem runCompactPath_sound {inp rinit : List DVector2D} {eps : ℚ}
    {metric : DeviationMetric} {res : List DVector2D} {len : Nat}
    (h2 : 2 ≤ inp.length) (hcap : inp.length ≤ rinit.length)
    (hrun : runCompactPath inp rinit eps metric = CPOutcome.success res len) :
    ∃ l, rdpContrib inp eps metric 0 inp.length = some l ∧
      len = 1 + l.length ∧ res.take len = inp.take 1 ++ l := by
  rw [runCompactPath_eq_loop inp rinit eps metric (by omega) hcap] at hrun
  have hsound := cpLoop_sound inp eps metric (2 * inp.length + 2)
    [⟨0, 0, inp.length⟩] { pmem := inp, rmem := rinit.set 0 inp[0], aliased := false }
    1 0 res len
    (by intro i hi; rfl)
    (by exact ⟨rfl, rfl, h2, by show 0 + inp.length - 1 + 1 = inp.length; omega⟩)
    (by show inp.length ≤ (rinit.set 0 inp[0]).length; rw [List.length_set]; omega)
    (by omega) (by omega)
    (by
      show (rinit.set 0 inp[0])[0]? = inp[0]?
      rw [List.getElem?_set_self (by omega), List.getElem?_eq_getElem (by omega)])
    hrun
  obtain ⟨ls, hmap, hlen, htake⟩ := hsound
  simp only [List.mapM_cons, List.mapM_nil, Option.bind_eq_bind, Option.bind_eq_some,
    Option.pure_def, Option.some.injEq] at hmap
  obtain ⟨l, hl, a, ha, heq⟩ := hmap
  subst ha
  subst heq
  refine ⟨l, hl, ?_, ?_⟩
  · rw [hlen]
    simp
  · rw [htake]
    show (rinit.set 0 inp[0]).take 1 ++ [l].flatten = inp.take 1 ++ l
    rw [take_set_zero (by omega), take_one_of_pos (by omega)]
    simp

theorem runCompactPathAliased_sound {inp : List DVector2D} {eps : ℚ}
    {metric : DeviationMetric} {res : List DVector2D} {len : Nat}
    (h2 : 2 ≤ inp.length)
    (hrun : runCompactPathAliased inp eps metric = CPOutcome.success res len) :
    ∃ l, rdpContrib inp eps metric 0 inp.length = some l ∧
      len = 1 + l.length ∧ res.take len = inp.take 1 ++ l := by
  rw [runCompactPathAliased_eq_loop inp eps metric (by omega)] at hrun
  have hsound := cpLoop_sound inp eps metric (2 * inp.length + 2)
    [⟨0, 0, inp.length⟩] { pmem := [], rmem := inp, aliased := true }
    1 0 res len
    (by intro i hi; rfl)
    (by exact ⟨rfl, rfl, h2, by show 0 + inp.length - 1 + 1 = inp.length; omega⟩)
    (Nat.le_refl inp.length)
    (by omega) (by omega)
    (by rfl)
    hrun
  obtain ⟨ls, hmap, hlen, htake⟩ := hsound
  simp only [List.mapM_cons, List.mapM_nil, Option.bind_eq_bind, Option.bind_eq_some,
    Option.pure_def, Option.some.injEq] at hmap
  obtain ⟨l, hl, a, ha, heq⟩ := hmap
  subst ha
  subst heq
  refine ⟨l, hl, ?_, ?_⟩
  · rw [hlen]
    simp
  · rw [htake]
    show inp.take 1 ++ [l].flatten = inp.take 1 ++ l
    simp

theorem runCompactPath_complete {inp rinit : List DVector2D} {eps : ℚ}
    {metric : DeviationMetric} {l : List DVector2D}
    (h2 : 2 ≤ inp.length) (hcap : inp.length ≤ rinit.length)
    (hrdp : rdpContrib inp eps metric 0 inp.length = some l) :
    ∃ res, runCompactPath inp rinit eps metric = CPOutcome.success res (1 + l.length) ∧
      res.take (1 + l.length) = inp.take 1 ++ l := by
  obtain ⟨k, s', hk, hloop, hp, hal, hlen, htake, -, -⟩ :=
    cpLoop_complete inp eps metric inp.length 0 []
      { pmem := inp, rmem := rinit.set 0 inp[0], aliased := false } 1 l
      (by intro i hi; rfl) h2 (by omega)
      (by show inp.length ≤ (rinit.set 0 inp[0]).length; rw [List.length_set]; omega)
      (by omega) (by omega)
      (by
        show (rinit.set 0 inp[0])[0]? = inp[0]?
        rw [List.getElem?_set_self (by omega), List.getElem?_eq_getElem (by omega)])
      hrdp
  have hx := hloop (2 * inp.length + 2 - k)
  have hy : 2 * inp.length + 2 - k + k = 2 * inp.length + 2 := by omega
  rw [hy] at hx
  obtain ⟨m, hm⟩ : ∃ m, 2 * inp.length + 2 - k = m + 1 := ⟨2 * inp.length + 1 - k, by omega⟩
  rw [hm] at hx
  refine ⟨s'.rmem, ?_, ?_⟩
  · rw [runCompactPath_eq_loop inp rinit eps metric (by omega) hcap, hx]
    simp only [compactPathLoop]
  · have htake1 := htake
    show s'.rmem.take (1 + l.length) = inp.take 1 ++ l
    rw [htake1]
    show (rinit.set 0 inp[0]).take 1 ++ l = inp.take 1 ++ l
    rw [take_set_zero (by omega), take_one_of_pos (by omega)]

theorem runCompactPathAliased_complete {inp : List DVector2D} {eps : ℚ}
    {metric : DeviationMetric} {l : List DVector2D}
    (h2 : 2 ≤ inp.length)
    (hrdp : rdpContrib inp eps metric 0 inp.length = some l) :
    ∃ res, runCompactPathAliased inp eps metric = CPOutcome.success res (1 + l.length) ∧
      res.take (1 + l.length) = inp.take 1 ++ l := by
  obtain ⟨k, s', hk, hloop, hp, hal, hlen, htake, -, -⟩ :=
    cpLoop_complete inp eps metric inp.length 0 []
      { pmem := [], rmem := inp, aliased := true } 1 l
      (by intro i hi; rfl) h2 (by omega)
      (Nat.le_refl inp.length)
      (by omega) (by omega)
      (by rfl)
      hrdp
  have hx := hloop (2 * inp.length + 2 - k)
  have hy : 2 * inp.length + 2 - k + k = 2 * inp.length + 2 := by omega
  rw [hy] at hx
  obtain ⟨m, hm⟩ : ∃ m, 2 * inp.length + 2 - k = m + 1 := ⟨2 * inp.length + 1 - k, by omega⟩
  rw [hm] at hx
  refine ⟨s'.rmem, ?_, ?_⟩
  · rw [runCompactPathAliased_eq_loop inp eps metric (by omega), hx]
    simp only [compactPathLoop]
  · show s'.rmem.take (1 + l.length) = inp.take 1 ++ l
    rw [htake]

/-! Monotonicity of the functional recursion in the tolerance. -/

theorem rdpContrib_mono (inp : List DVector2D) (metric : DeviationMetric) :
    ∀ len off l1 (e1 e2 : ℚ), 0 ≤ e1 → e1 ≤ e2 →
      2 ≤ len → off + len ≤ inp.length →
      rdpContrib inp e1 metric off len = some l1 →
      ∃ l2, rdpContrib inp e2 metric off len = some l2 ∧ l2.length ≤ l1.length := by
  intro len
  induction len using Nat.strong_induction_on with
  | _ len ih =>
    intro off l1 e1 e2 he1 he2 hlen hb hrdp
    have hsq : e1 * e1 ≤ e2 * e2 := mul_self_le_mul_self he1 he2
    rcases Nat.lt_or_ge len 3 with h3 | h3
    · rw [rdpContrib_small h3] at hrdp
      have hl : l1 = sliceSpan inp (off + 1) (len - 1) := by injection hrdp.symm
      rw [rdpContrib_small h3, hl]
      exact ⟨_, rfl, le_refl _⟩
    · by_cases hsc1 : (spanScanT inp off len metric).1 < e1 * e1
      · have hsc2 : (spanScanT inp off len metric).1 < e2 * e2 := lt_of_lt_of_le hsc1 hsq
        rw [rdpContrib_lin (by omega) hsc1] at hrdp
        have hl : l1 = [inp.getD (off + len - 1) default] := by injection hrdp.symm
        rw [rdpContrib_lin (by omega) hsc2, hl]
        exact ⟨_, rfl, le_refl _⟩
      · cases hopt : (spanScanT inp off len metric).2 with
        | none =>
          rw [rdpContrib_div_none (by omega) hsc1 hopt] at hrdp
          exact absurd hrdp (by simp)
        | some d =>
          obtain ⟨hd1, hd2, -⟩ := spanScanT_some hopt
          rw [rdpContrib_div (by omega) hsc1 hopt] at hrdp
          cases hla : rdpContrib inp e1 metric off (d + 1) with
          | none => rw [hla] at hrdp; exact absurd hrdp (by simp)
          | some la =>
            cases hlb : rdpContrib inp e1 metric (off + d) (len - d) with
            | none => rw [hla, hlb] at hrdp; exact absurd hrdp (by simp)
            | some lb =>
              rw [hla, hlb] at hrdp
              have hl : l1 = la ++ lb := by injection hrdp.symm
              subst hl
              obtain ⟨hla1, -, -, -⟩ :=
                rdpContrib_facts inp e1 metric (d + 1) off la (by omega) (by omega) hla
              by_cases hsc2 : (spanScanT inp off len metric).1 < e2 * e2
              · rw [rdpContrib_lin (by omega) hsc2]
                refine ⟨_, rfl, ?_⟩
                simp only [List.length_cons, List.length_nil, List.length_append]
                omega
              · obtain ⟨la2, hla2, hlen2⟩ := ih (d + 1) (by omega) off la e1 e2 he1 he2
                  (by omega) (by omega) hla
                obtain ⟨lb2, hlb2, hlen2'⟩ := ih (len - d) (by omega) (off + d) lb e1 e2
                  he1 he2 (by omega) (by omega) hlb
                rw [rdpContrib_div (by omega) hsc2 hopt, hla2, hlb2]
                refine ⟨la2 ++ lb2, rfl, ?_⟩
                simp only [List.length_append]
                omega

/-! Idempotence of the functional recursion: re-running the recursion on
a span's own output reproduces the output. -/

theorem dropLast_sliceSpan {inp : List DVector2D} {off len : Nat}
    (h : off + len ≤ inp.length) :
    (sliceSpan inp off len).dropLast = sliceSpan inp off (len - 1) := by
  rw [List.dropLast_eq_take, length_sliceSpan h, sliceSpan, sliceSpan, List.take_take,
    Nat.min_eq_left (by omega)]

theorem mem_sliceSpan_getD {inp : List DVector2D} {v : DVector2D} {a b : Nat}
    (hv : v ∈ sliceSpan inp a b) (hb : a + b ≤ inp.length) :
    ∃ j, j < b ∧ v = inp.getD (a + j) default := by
  rw [List.mem_iff_getElem?] at hv
  obtain ⟨j, hj⟩ := hv
  have hjb : j < b := by
    by_contra hc
    rw [List.getElem?_eq_none (by rw [length_sliceSpan hb]; omega)] at hj
    exact absurd hj (by simp)
  rw [getElem?_sliceSpan hjb, List.getElem?_eq_getElem (by omega)] at hj
  injection hj with hh
  refine ⟨j, hjb, ?_⟩
  rw [getD_default_eq (by omega)]
  exact hh.symm

theorem rdpContrib_idem (metric : DeviationMetric) (inp : List DVector2D) (eps : ℚ) :
    ∀ len, ∀ off l (out : List DVector2D) (off2 : Nat),
      2 ≤ len → off + len ≤ inp.length →
      rdpContrib inp eps metric off len = some l →
      off2 + (l.length + 1) ≤ out.length →
      sliceSpan out off2 (l.length + 1) = inp.getD off default :: l →
      rdpContrib out eps metric off2 (l.length + 1) = some l := by
  intro len
  induction len using Nat.strong_induction_on with
  | _ len ih =>
    intro off l out off2 hlen hb hrdp hb2 hslice
    have hcell : ∀ j, j < l.length + 1 → out[off2 + j]? = (inp.getD off default :: l)[j]? :=
      fun j hj => by rw [← hslice]; exact (getElem?_sliceSpan hj).symm
    rcases Nat.lt_or_ge len 3 with h3 | h3
    · -- original span solved verbatim: l is one point
      have hl2 : len = 2 := by omega
      subst hl2
      rw [rdpContrib_small (by omega)] at hrdp
      have hl : l = sliceSpan inp (off + 1) 1 := by injection hrdp.symm
      have hlv : l = [inp.getD (off + 1) default] := by
        rw [hl, sliceSpan, take_one_drop (by omega), getD_default_eq (by omega)]
      have hllen : l.length = 1 := by rw [hlv]; rfl
      rw [hllen, rdpContrib_small (by omega)]
      congr 1
      rw [sliceSpan, take_one_drop (by omega : off2 + 1 < out.length)]
      have hc : out[off2 + 1]? = some (inp.getD (off + 1) default) := by
        have hcc := hcell 1 (by omega)
        rw [hlv] at hcc
        exact hcc
      rw [List.getElem?_eq_getElem (by omega)] at hc
      injection hc with hh
      rw [hh, hlv]
    · by_cases hsc : (spanScanT inp off len metric).1 < eps * eps
      · -- original span linearized: l is the far anchor
        rw [rdpContrib_lin (by omega) hsc] at hrdp
        have hlv : l = [inp.getD (off + len - 1) default] := by injection hrdp.symm
        have hllen : l.length = 1 := by rw [hlv]; rfl
        rw [hllen, rdpContrib_small (by omega)]
        congr 1
        rw [sliceSpan, take_one_drop (by omega : off2 + 1 < out.length)]
        have hc : out[off2 + 1]? = some (inp.getD (off + len - 1) default) := by
          have hcc := hcell 1 (by omega)
          rw [hlv] at hcc
          exact hcc
        rw [List.getElem?_eq_getElem (by omega)] at hc
        injection hc with hh
        rw [hh, hlv]
      · cases hopt : (spanScanT inp off len metric).2 with
        | none =>
          rw [rdpContrib_div_none (by omega) hsc hopt] at hrdp
          exact absurd hrdp (by simp)
        | some d =>
          obtain ⟨hd1, hd2, hdev, hpos, hstrict, hle⟩ := spanScanT_some hopt
          rw [rdpContrib_div (by omega) hsc hopt] at hrdp
          cases hla : rdpContrib inp eps metric off (d + 1) with
          | none => rw [hla] at hrdp; exact absurd hrdp (by simp)
          | some la =>
            cases hlb : rdpContrib inp eps metric (off + d) (len - d) with
            | none => rw [hla, hlb] at hrdp; exact absurd hrdp (by simp)
            | some lb =>
              rw [hla, hlb] at hrdp
              have hl : l = la ++ lb := by injection hrdp.symm
              subst hl
              obtain ⟨hla1, hla2, hlaLast, hlaSub⟩ :=
                rdpContrib_facts inp eps metric (d + 1) off la (by omega) (by omega) hla
              obtain ⟨hlb1, hlb2, hlbLast, hlbSub⟩ :=
                rdpContrib_facts inp eps metric (len - d) (off + d) lb (by omega)
                  (by omega) hlb
              have happlen : (la ++ lb).length = la.length + lb.length :=
                List.length_append _ _
              have hlaLast' : la.getLast? = some (inp.getD (off + d) default) := by
                have hz : off + (d + 1) - 1 = off + d := by omega
                rw [hlaLast, hz]
              -- cell values of `out` over the second-run span, as getD
              have hcellD : ∀ j, 1 ≤ j → j < (la ++ lb).length + 1 →
                  out.getD (off2 + j) default = (la ++ lb).getD (j - 1) default := by
                intro j h1 h2
                have hc := hcell j h2
                obtain ⟨m, hm⟩ : ∃ m, j = m + 1 := ⟨j - 1, by omega⟩
                subst hm
                rw [List.getElem?_cons_succ] at hc
                have hz : m + 1 - 1 = m := by omega
                rw [List.getD_eq_getElem?_getD, hc, List.getD_eq_getElem?_getD, hz]
              have hstart2 : spanStart out off2 = spanStart inp off := by
                have hc := hcell 0 (by omega)
                rw [Nat.add_zero, List.getElem?_cons_zero] at hc
                simp only [spanStart]
                rw [List.getD_eq_getElem?_getD, hc]
                rfl
              have hlast_l : (la ++ lb).getLast? = some (inp.getD (off + len - 1) default) := by
                rw [List.getLast?_append, hlbLast]
                have hz : off + d + (len - d) - 1 = off + len - 1 := by omega
                rw [hz]
                rfl
              have hend2 : spanEnd out off2 ((la ++ lb).length + 1) = spanEnd inp off len := by
                simp only [spanEnd]
                have hc := hcell ((la ++ lb).length) (by omega)
                obtain ⟨m, hm⟩ : ∃ m, (la ++ lb).length = m + 1 :=
                  ⟨(la ++ lb).length - 1, by rw [happlen]; omega⟩
                rw [hm, List.getElem?_cons_succ] at hc
                have hgl : (la ++ lb)[m]? = some (inp.getD (off + len - 1) default) := by
                  have hz : m + 1 - 1 = m := by omega
                  rw [← hlast_l, List.getLast?_eq_getElem?, hm, hz]
                rw [hgl] at hc
                have hidx : off2 + ((la ++ lb).length + 1) - 1 = off2 + (la ++ lb).length := by
                  omega
                rw [hidx, hm, List.getD_eq_getElem?_getD, hc]
                rfl
              have hsq2 : spanSqLen out off2 ((la ++ lb).length + 1) = spanSqLen inp off len := by
                simp only [spanSqLen, hstart2, hend2]
              have hdev2 : ∀ j, spanDev out off2 ((la ++ lb).length + 1) metric j =
                  pointDev metric (spanStart inp off) (spanEnd inp off len)
                    (spanSqLen inp off len) (out.getD (off2 + j) default) := by
                intro j
                simp only [spanDev, hstart2, hend2, hsq2]
              -- deviation bounds for the surviving points
              have hdevlt : ∀ v ∈ la.dropLast,
                  pointDev metric (spanStart inp off) (spanEnd inp off len)
                    (spanSqLen inp off len) v < (spanScanT inp off len metric).1 := by
                intro v hv
                have hsubd := sublist_dropLast hlaSub
                have hz : (d + 1) - 1 = d := by omega
                rw [hz, dropLast_sliceSpan (by omega)] at hsubd
                have hvmem : v ∈ sliceSpan inp (off + 1) (d - 1) := hsubd.subset hv
                obtain ⟨j, hj, hjv⟩ := mem_sliceSpan_getD hvmem (by omega)
                have hs := hstrict (1 + j) (by omega) (by omega)
                have hform : spanDev inp off len metric (1 + j) =
                    pointDev metric (spanStart inp off) (spanEnd inp off len)
                      (spanSqLen inp off len) (inp.getD (off + (1 + j)) default) := rfl
                rw [hform] at hs
                rw [hjv]
                have hidx : off + 1 + j = off + (1 + j) := by omega
                rw [hidx]
                exact hs
              have hdevleb : ∀ v ∈ lb.dropLast,
                  pointDev metric (spanStart inp off) (spanEnd inp off len)
                    (spanSqLen inp off len) v ≤ (spanScanT inp off len metric).1 := by
                intro v hv
                have hsubd := sublist_dropLast hlbSub
                rw [dropLast_sliceSpan (by omega)] at hsubd
                have hvmem : v ∈ sliceSpan inp (off + d + 1) (len - d - 1 - 1) := hsubd.subset hv
                obtain ⟨j, hj, hjv⟩ := mem_sliceSpan_getD hvmem (by omega)
                have hs := hle (d + 1 + j) (by omega) (by omega)
                have hform : spanDev inp off len metric (d + 1 + j) =
                    pointDev metric (spanStart inp off) (spanEnd inp off len)
                      (spanSqLen inp off len) (inp.getD (off + (d + 1 + j)) default) := rfl
                rw [hform] at hs
                rw [hjv]
                have hidx : off + d + 1 + j = off + (d + 1 + j) := by omega
                rw [hidx]
                exact hs
              have hdevd : pointDev metric (spanStart inp off) (spanEnd inp off len)
                  (spanSqLen inp off len) (inp.getD (off + d) default) =
                  (spanScanT inp off len metric).1 := by
                have hform : spanDev inp off len metric d =
                    pointDev metric (spanStart inp off) (spanEnd inp off len)
                      (spanSqLen inp off len) (inp.getD (off + d) default) := rfl
                rw [← hform, ← hdev]
              -- the split point is the first attainment in the second run too
              have hscan2 : spanScanT out off2 ((la ++ lb).length + 1) metric =
                  ((spanScanT inp off len metric).1, some la.length) := by
                rw [spanScanT]
                apply scanFold_of_argmax (by omega)
                  (by rw [happlen] at *; omega)
                · -- deviation at the split position equals the running maximum
                  rw [hdev2, hcellD la.length (by omega) (by rw [happlen]; omega)]
                  have hgl : (la ++ lb).getD (la.length - 1) default =
                      inp.getD (off + d) default := by
                    rw [List.getD_eq_getElem?_getD, List.getElem?_append_left (by omega),
                      ← List.getLast?_eq_getElem?, hlaLast']
                    rfl
                  rw [hgl, hdevd]
                · exact hpos
                · intro j h1 h2
                  rw [hdev2, hcellD j (by omega) (by rw [happlen]; omega)]
                  have hmem : (la ++ lb).getD (j - 1) default ∈ la.dropLast := by
                    have hj1 : (la ++ lb)[j - 1]? = la[j - 1]? :=
                      List.getElem?_append_left (by omega)
                    have hj2 : la[j - 1]? = la.dropLast[j - 1]? := by
                      rw [List.dropLast_eq_take, List.getElem?_take, if_pos (by omega)]
                    rw [List.getD_eq_getElem?_getD, hj1, hj2,
                      List.getElem?_eq_getElem (by rw [List.length_dropLast]; omega)]
                    exact List.getElem_mem _
                  exact hdevlt _ hmem
                · intro j h1 h2
                  rcases Nat.lt_or_ge j la.length with hj | hj
                  · rw [hdev2, hcellD j (by omega) (by rw [happlen] at *; omega)]
                    have hmem : (la ++ lb).getD (j - 1) default ∈ la.dropLast := by
                      have hj1 : (la ++ lb)[j - 1]? = la[j - 1]? :=
                        List.getElem?_append_left (by omega)
                      have hj2 : la[j - 1]? = la.dropLast[j - 1]? := by
                        rw [List.dropLast_eq_take, List.getElem?_take, if_pos (by omega)]
                      rw [List.getD_eq_getElem?_getD, hj1, hj2,
                        List.getElem?_eq_getElem (by rw [List.length_dropLast]; omega)]
                      exact List.getElem_mem _
                    exact le_of_lt (hdevlt _ hmem)
                  · rcases Nat.lt_or_ge la.length j with hj2 | hj2
                    · rw [hdev2, hcellD j (by omega) (by rw [happlen] at *; omega)]
                      have hmem : (la ++ lb).getD (j - 1) default ∈ lb.dropLast := by
                        have hj1 : (la ++ lb)[j - 1]? = lb[j - 1 - la.length]? :=
                          List.getElem?_append_right (by omega)
                        have hj3 : lb[j - 1 - la.length]? = lb.dropLast[j - 1 - la.length]? := by
                          rw [List.dropLast_eq_take, List.getElem?_take,
                            if_pos (by rw [happlen] at h2; omega)]
                        rw [List.getD_eq_getElem?_getD, hj1, hj3,
                          List.getElem?_eq_getElem
                            (by rw [List.length_dropLast]; rw [happlen] at h2; omega)]
                        exact List.getElem_mem _
                      exact hdevleb _ hmem
                    · have hjeq : j = la.length := by omega
                      subst hjeq
                      rw [hdev2, hcellD la.length (by omega) (by rw [happlen]; omega)]
                      have hgl : (la ++ lb).getD (la.length - 1) default =
                          inp.getD (off + d) default := by
                        rw [List.getD_eq_getElem?_getD, List.getElem?_append_left (by omega),
                          ← List.getLast?_eq_getElem?, hlaLast']
                        rfl
                      rw [hgl, hdevd]
              -- recursive calls of the second run
              have hrec1 : rdpContrib out eps metric off2 (la.length + 1) = some la := by
                apply ih (d + 1) (by omega) off la out off2 (by omega) (by omega) hla
                  (by rw [happlen] at hb2; omega)
                apply List.ext_getElem?
                intro j
                rcases Nat.lt_or_ge j (la.length + 1) with hj | hj
                · rw [getElem?_sliceSpan hj]
                  have hc := hcell j (by rw [happlen]; omega)
                  rw [hc]
                  cases j with
                  | zero => rw [List.getElem?_cons_zero, List.getElem?_cons_zero]
                  | succ m =>
                    rw [List.getElem?_cons_succ, List.getElem?_cons_succ,
                      List.getElem?_append_left (by omega)]
                · rw [List.getElem?_eq_none (by rw [length_sliceSpan
                    (by rw [happlen] at hb2; omega)]; omega),
                    List.getElem?_eq_none (by simp only [List.length_cons]; omega)]
              have hrec2 : rdpContrib out eps metric (off2 + la.length) (lb.length + 1) =
                  some lb := by
                apply ih (len - d) (by omega) (off + d) lb out (off2 + la.length)
                  (by omega) (by omega) hlb (by rw [happlen] at hb2; omega)
                apply List.ext_getElem?
                intro j
                rcases Nat.lt_or_ge j (lb.length + 1) with hj | hj
                · rw [getElem?_sliceSpan hj]
                  cases j with
                  | zero =>
                    obtain ⟨m, hm⟩ : ∃ m, la.length = m + 1 := ⟨la.length - 1, by omega⟩
                    have hc := hcell la.length (by rw [happlen]; omega)
                    rw [hm, List.getElem?_cons_succ] at hc
                    have hla_m : la[m]? = some (inp.getD (off + d) default) := by
                      rw [← hlaLast', List.getLast?_eq_getElem?]
                      congr 1
                      omega
                    have hgl : (la ++ lb)[m]? = some (inp.getD (off + d) default) := by
                      rw [List.getElem?_append_left (by omega), hla_m]
                    rw [hgl] at hc
                    rw [Nat.add_zero, hm, List.getElem?_cons_zero, hc]
                  | succ m =>
                    have hc := hcell (la.length + (m + 1)) (by rw [happlen] at *; omega)
                    have hidx : off2 + la.length + (m + 1) = off2 + (la.length + (m + 1)) := by
                      omega
                    rw [hidx, hc]
                    obtain ⟨mm, hmm⟩ : ∃ mm, la.length + (m + 1) = mm + 1 :=
                      ⟨la.length + m, by omega⟩
                    rw [hmm, List.getElem?_cons_succ, List.getElem?_cons_succ,
                      List.getElem?_append_right (by omega)]
                    congr 1
                    omega
                · rw [List.getElem?_eq_none (by rw [length_sliceSpan
                    (by rw [happlen] at hb2; omega)]; omega),
                    List.getElem?_eq_none (by simp only [List.length_cons]; omega)]
              -- assemble
              rw [rdpContrib_div (by rw [happlen] at *; omega)
                (by rw [hscan2]; exact hsc) (by rw [hscan2])]
              rw [hrec1]
              have hz : (la ++ lb).length + 1 - la.length = lb.length + 1 := by
                rw [happlen]; omega
              rw [hz, hrec2]

/-! Degenerate inputs: empty and single-point paths. -/

theorem runCompactPath_nil (rinit : List DVector2D) (eps : ℚ) (metric : DeviationMetric) :
    runCompactPath [] rinit eps metric = CPOutcome.ub := rfl

theorem runCompactPathAliased_nil (eps : ℚ) (metric : DeviationMetric) :
    runCompactPathAliased [] eps metric = CPOutcome.ub := rfl

theorem runCompactPathAliased_one (p : DVector2D) (eps : ℚ) (metric : DeviationMetric) :
    runCompactPathAliased [p] eps metric = CPOutcome.success [p] 1 := rfl

theorem runCompactPath_one (p : DVector2D) (rinit : List DVector2D) (eps : ℚ)
    (metric : DeviationMetric) (h : 1 ≤ rinit.length) :
    runCompactPath [p] rinit eps metric = CPOutcome.success (rinit.set 0 p) 1 := by
  have hlen1 : ([p] : List DVector2D).length = 1 := rfl
  rw [runCompactPath_eq_loop [p] rinit eps metric (by rw [hlen1]) (by rw [hlen1]; omega)]
  show compactPathLoop eps metric (3 + 1) [{ pOff := 0, rOff := 0, len := 1 }]
      { pmem := [p], rmem := rinit.set 0 p, aliased := false } 1 =
    CPOutcome.success (rinit.set 0 p) 1
  have hrd : ∀ i, i < 1 →
      readPoint { pmem := [p], rmem := rinit.set 0 p, aliased := false } (0 + i) =
        ([p] : List DVector2D)[0 + i]? := by
    intro i hi
    have hi0 : i = 0 := by omega
    subst hi0
    rfl
  have hsolver := @solver_spec_small
    { pmem := [p], rmem := rinit.set 0 p, aliased := false }
    [p] 0 1 eps metric
    (by omega) hrd (by rw [hlen1])
    (by show 0 + 1 ≤ (rinit.set 0 p).length; rw [List.length_set]; omega)
  dsimp only at hsolver
  have hslice : sliceSpan [p] 0 1 = [p] := rfl
  rw [hslice] at hsolver
  have hov : overwrite (rinit.set 0 p) 0 [p] = rinit.set 0 p := by
    rw [overwrite_singleton _ (by rw [List.length_set]; omega), List.set_set]
  rw [hov] at hsolver
  have hstep := cpLoop_consume_step eps metric 3 0 1 []
    { pmem := [p], rmem := rinit.set 0 p, aliased := false } (rinit.set 0 p) 1 1
    CompactPathResultCode.solved none hsolver (by simp) (by omega)
    (by rw [List.length_set]; omega) (by rw [List.length_set]; omega)
  rw [hstep]
  simp only [show (1 : Nat) - 1 = 0 from rfl, List.take_zero, overwrite_nil,
    Nat.add_zero, compactPathLoop]

/-- A two-point span contributes exactly its second point. -/
theorem rdpContrib_two (p q : DVector2D) (eps : ℚ) (metric : DeviationMetric) :
    rdpContrib [p, q] eps metric 0 2 = some [q] := by
  rw [rdpContrib_small (by omega)]
  rfl

/-! Negating the tolerance: `dEpsilon` enters the computation only as
`dEpsilon * dEpsilon`, so the sign of the argument is irrelevant. -/

theorem solver_neg_eps (s : CPState) (pOff len rOff : Nat) (e : ℚ)
    (metric : DeviationMetric) :
    compactPathSubproblemSolver s pOff len rOff (-e) metric =
      compactPathSubproblemSolver s pOff len rOff e metric := by
  simp only [compactPathSubproblemSolver, neg_mul_neg]

theorem cpLoop_neg_eps (e : ℚ) (metric : DeviationMetric) :
    ∀ fuel stk s solved, compactPathLoop (-e) metric fuel stk s solved =
      compactPathLoop e metric fuel stk s solved := by
  intro fuel
  induction fuel with
  | zero => intro stk s solved; rfl
  | succ m ih =>
    intro stk s solved
    cases stk with
    | nil => rfl
    | cons current rest =>
      simp only [compactPathLoop, solver_neg_eps]
      cases compactPathSubproblemSolver s current.pOff current.len current.rOff e metric with
      | none => rfl
      | some val =>
        obtain ⟨code, s', rlen, dIdx⟩ := val
        cases code with
        | divide =>
          cases dIdx with
          | none => rfl
          | some iDiv =>
            dsimp only
            split
            · rfl
            · exact ih _ _ _
        | linearize =>
          dsimp only
          split
          · rfl
          · cases memmoveR s' solved (current.rOff + 1) (rlen - 1) with
            | none => rfl
            | some s2 => exact ih _ _ _
        | solved =>
          dsimp only
          split
          · rfl
          · cases memmoveR s' solved (current.rOff + 1) (rlen - 1) with
            | none => rfl
            | some s2 => exact ih _ _ _

theorem compactPath_neg_eps (s : CPState) (n : Nat) (e : ℚ)
    (metric : DeviationMetric) :
    compactPath s n (-e) metric = compactPath s n e metric := by
  rw [compactPath, compactPath]
  cases readPoint s 0 with
  | none => rfl
  | some p0 =>
    dsimp only
    cases writePoint s 0 p0 with
    | none => rfl
    | some s1 =>
      dsimp only
      exact cpLoop_neg_eps e metric _ _ _ _

/-! Allocation-failure behavior of the stack-growth path (for the
realloc antipattern in `compactPathCallStackPush`). -/

/-- On a full stack with a failing `realloc`, the push reports failure,
the base pointer has been overwritten with NULL, and the old stack block
is still live. -/
theorem push_realloc_failure (b cap : Nat) (h : Heap) (st : CallStackRec)
    (hst : st = { base := some b, capacity := cap, numCalls := cap }) :
    compactPathCallStackPush false st h =
      (false, { base := none, capacity := cap + COMPACT_PATH_CALL_STACK_UNIT,
                numCalls := cap }, h) := by
  subst hst
  rw [compactPathCallStackPush]
  rw [if_pos (by show cap ≥ cap; omega)]
  rfl

/-- The deviation scan over the collinear three-point path
`(0,0), (1,0), (2,0)` under `perpendicularDistance` finds no deviation
above the initial running maximum `0.0`, so `iMaxPointIndex` is never
assigned: the scan result is `(0, none)`. -/
theorem scan_collinear :
    spanScanT [⟨0,0⟩, ⟨1,0⟩, ⟨2,0⟩] 0 3 perpendicularDistance = (0, none) := by
  have hdev : spanDev [⟨0,0⟩, ⟨1,0⟩, ⟨2,0⟩] 0 3 perpendicularDistance 1 = 0 := by
    norm_num [spanDev, pointDev, spanStart, spanEnd, spanSqLen, perpendicularDistance,
      List.getD]
  have h1 : spanScanT [⟨0,0⟩, ⟨1,0⟩, ⟨2,0⟩] 0 3 perpendicularDistance =
      scanStep (0, none) (spanDev [⟨0,0⟩, ⟨1,0⟩, ⟨2,0⟩] 0 3 perpendicularDistance 1) 1 := rfl
  rw [h1, hdev]
  simp [scanStep]

/-! The claims. -/

/-- C1: for every input path with at least 2 points on which `compactPath`
succeeds, the reported result length is between 2 and the input length
inclusive, the first output point equals the first input point, the last
output point equals the last input point, and the surviving points appear
in the input's relative order. -/
theorem claim_C1 {inp rinit : List DVector2D} {eps : ℚ} {metric : DeviationMetric}
    {res : List DVector2D} {len : Nat}
    (h2 : 2 ≤ inp.length) (hcap : inp.length ≤ rinit.length)
    (hrun : runCompactPath inp rinit eps metric = CPOutcome.success res len) :
    2 ≤ len ∧ len ≤ inp.length ∧
      (res.take len).head? = inp.head? ∧
      (res.take len).getLast? = inp.getLast? ∧
      (res.take len).Sublist inp := by
  obtain ⟨l, hl, hlen, htake⟩ := runCompactPath_sound h2 hcap hrun
  obtain ⟨hl1, hl2, hlast, hsub⟩ := rdpContrib_facts inp eps metric inp.length 0 l h2
    (by omega) hl
  have hpos : 0 < inp.length := by omega
  have htk1 : inp.take 1 = [inp[0]] := take_one_of_pos hpos
  refine ⟨by omega, by omega, ?_, ?_, ?_⟩
  · rw [htake, htk1]
    show (inp[0] :: l).head? = inp.head?
    rw [List.head?_cons, List.head?_eq_getElem?, List.getElem?_eq_getElem hpos]
  · rw [htake]
    have hne : l ≠ [] := by
      intro hc
      rw [hc] at hl1
      exact absurd hl1 (by simp)
    rw [List.getLast?_append_of_ne_nil _ hne, hlast, List.getLast?_eq_getElem?]
    have hz : 0 + inp.length - 1 = inp.length - 1 := by omega
    rw [hz, getD_default_eq (by omega : inp.length - 1 < inp.length),
      List.getElem?_eq_getElem (by omega : inp.length - 1 < inp.length)]
  · rw [htake]
    have hsub1 : l.Sublist (sliceSpan inp 1 (inp.length - 1)) := by simpa using hsub
    have hslice : sliceSpan inp 1 (inp.length - 1) = inp.drop 1 := by
      rw [sliceSpan, List.take_of_length_le (by rw [List.length_drop])]
    rw [hslice] at hsub1
    conv_rhs => rw [← List.take_append_drop 1 inp]
    exact List.Sublist.append (List.Sublist.refl _) hsub1

/-- Witness for C1 at the two-point path `(0,0), (1,0)`. -/
theorem claim_C1_witness :
    2 ≤ 2 ∧ 2 ≤ ([⟨0,0⟩, ⟨1,0⟩] : List DVector2D).length ∧
      (([⟨0,0⟩, ⟨1,0⟩] : List DVector2D).take 2).head? =
        ([⟨0,0⟩, ⟨1,0⟩] : List DVector2D).head? ∧
      (([⟨0,0⟩, ⟨1,0⟩] : List DVector2D).take 2).getLast? =
        ([⟨0,0⟩, ⟨1,0⟩] : List DVector2D).getLast? ∧
      (([⟨0,0⟩, ⟨1,0⟩] : List DVector2D).take 2).Sublist [⟨0,0⟩, ⟨1,0⟩] :=
  @claim_C1 [⟨0,0⟩, ⟨1,0⟩] [⟨9,9⟩, ⟨9,9⟩] 1 perpendicularDistance [⟨0,0⟩, ⟨1,0⟩] 2
    (by decide) (by decide) (by decide)

/-- C2 (amended): the driver performs no validation and unconditionally
copies the first input point, so an empty input is undefined behavior
(an out-of-bounds read), not an empty output; a single-point input
yields that point with reported length 1, and a two-point input yields
both points unchanged with reported length 2. -/
theorem claim_C2 (p q : DVector2D) (rinit : List DVector2D) (eps : ℚ)
    (metric : DeviationMetric) :
    runCompactPath [] rinit eps metric = CPOutcome.ub ∧
    (1 ≤ rinit.length →
      runCompactPath [p] rinit eps metric = CPOutcome.success (rinit.set 0 p) 1 ∧
      (rinit.set 0 p).take 1 = [p]) ∧
    (2 ≤ rinit.length →
      ∃ res, runCompactPath [p, q] rinit eps metric = CPOutcome.success res 2 ∧
        res.take 2 = [p, q]) := by
  refine ⟨runCompactPath_nil rinit eps metric, ?_, ?_⟩
  · intro h
    exact ⟨runCompactPath_one p rinit eps metric h, take_set_zero (by omega)⟩
  · intro h
    obtain ⟨res, hres, htake⟩ := @runCompactPath_complete [p, q] rinit eps metric [q]
      (by simp) (by simpa using h) (rdpContrib_two p q eps metric)
    refine ⟨res, by simpa using hres, by simpa using htake⟩

/-- Counterexample to C2 as stated: on the empty input the call does not
produce an empty output of reported length 0; it reads
`pPointArray[0]` out of bounds (undefined behavior). -/
theorem claim_C2_cex :
    runCompactPath [] [] 1 perpendicularDistance = CPOutcome.ub ∧
    CPOutcome.ub ≠ CPOutcome.success [] 0 :=
  ⟨rfl, by decide⟩

/-- C3 (amended): the iterative `compactPath` has no argument validation;
the tolerance enters the computation only as `dEpsilon * dEpsilon`, so a
call with tolerance `-e` behaves identically to one with `e` instead of
failing immediately. -/
theorem claim_C3 (s : CPState) (n : Nat) (e : ℚ) (metric : DeviationMetric) :
    compactPath s n (-e) metric = compactPath s n e metric :=
  compactPath_neg_eps s n e metric

/-- Counterexample to C3 as stated: a negative-tolerance call does not
fail; it copies points and reports success. -/
theorem claim_C3_cex :
    runCompactPath [⟨0,0⟩, ⟨1,0⟩] [⟨9,9⟩, ⟨9,9⟩] (-1) perpendicularDistance =
      CPOutcome.success [⟨0,0⟩, ⟨1,0⟩] 2 ∧
    CPOutcome.success ([⟨0,0⟩, ⟨1,0⟩] : List DVector2D) 2 ≠ CPOutcome.failure := by
  constructor
  · decide
  · decide

/-- C4: refuted at start `(0,0)`, end `(1,0)`, candidate `(-1,0)` (and
`dSquareSegmentLength = 1`): the projection parameter is negative, the
candidate's squared distance to the nearer endpoint (the start) is 1,
but `shortestDistanceToSegment` returns 4, the squared distance to the
far endpoint, because its "closer to start" branch tests
`dAdotB < 0 && dBdotC < 0`, which can never hold. -/
theorem claim_C4 :
    shortestDistanceToSegment ⟨0,0⟩ ⟨1,0⟩ ⟨-1,0⟩ 1 = 4 ∧
    ((0 - (-1 : ℚ)) * (0 - (-1)) + (0 - 0) * (0 - 0) = 1) ∧
    ((1 - (-1 : ℚ)) * (1 - (-1)) + (0 - 0) * (0 - 0) = 4) ∧
    (1 : ℚ) < 4 := by
  refine ⟨?_, by norm_num, by norm_num, by norm_num⟩
  norm_num [shortestDistanceToSegment]

/-- C5 (amended): for a span of length L ≥ 3 the solver linearizes
exactly when `0 < ε²` and every interior deviation is < ε² (the running
maximum starts at 0, so this is equivalent to the scan maximum being
< ε²), writing exactly the span's first and last points; and whenever
some interior index attains a strictly positive deviation that is the
running maximum (strictly exceeded by no later point and strictly
exceeding all earlier points), not below ε², the solver divides exactly
at the first such index.  The original claim's unconditional divide-index
guarantee fails when all deviations are ≤ 0 (see the counterexample). -/
theorem claim_C5 {s : CPState} {inp : List DVector2D} {pOff len : Nat}
    {eps : ℚ} {metric : DeviationMetric}
    (hlen : 3 ≤ len)
    (hrd : ∀ i, i < len → readPoint s (pOff + i) = inp[pOff + i]?)
    (hb1 : pOff + len ≤ inp.length) (hb2 : pOff + 2 ≤ s.rmem.length) :
    ((0 < eps * eps ∧
        ∀ j, 1 ≤ j → j < len - 1 → spanDev inp pOff len metric j < eps * eps) ↔
      compactPathSubproblemSolver s pOff len pOff eps metric =
        some (CompactPathResultCode.linearize,
          { s with rmem := overwrite s.rmem pOff [spanStart inp pOff, spanEnd inp pOff len] },
          2, none)) ∧
    (∀ d, 1 ≤ d → d < len - 1 →
      0 < spanDev inp pOff len metric d →
      ¬ spanDev inp pOff len metric d < eps * eps →
      (∀ j, 1 ≤ j → j < d → spanDev inp pOff len metric j < spanDev inp pOff len metric d) →
      (∀ j, 1 ≤ j → j < len - 1 → spanDev inp pOff len metric j ≤ spanDev inp pOff len metric d) →
      compactPathSubproblemSolver s pOff len pOff eps metric =
        some (CompactPathResultCode.divide, s, 0, some d)) := by
  constructor
  · constructor
    · rintro ⟨hpos, hall⟩
      have hsc : (spanScanT inp pOff len metric).1 < eps * eps := by
        cases hopt : (spanScanT inp pOff len metric).2 with
        | none =>
          rw [(spanScanT_none hopt).1]
          exact hpos
        | some d =>
          obtain ⟨hd1, hd2, hM, -, -, -⟩ := spanScanT_some hopt
          rw [hM]
          exact hall d hd1 hd2
      exact solver_spec_linearize hlen hrd hb1 hb2 hsc
    · intro hsolver
      by_cases hsc : (spanScanT inp pOff len metric).1 < eps * eps
      · constructor
        · have h0le : 0 ≤ (spanScanT inp pOff len metric).1 := by
            cases hopt : (spanScanT inp pOff len metric).2 with
            | none => rw [(spanScanT_none hopt).1]
            | some d => exact le_of_lt (spanScanT_some hopt).2.2.2.1
          exact lt_of_le_of_lt h0le hsc
        · intro j hj1 hj2
          have hle : spanDev inp pOff len metric j ≤ (spanScanT inp pOff len metric).1 := by
            cases hopt : (spanScanT inp pOff len metric).2 with
            | none =>
              obtain ⟨h0, hall⟩ := spanScanT_none hopt
              rw [h0]
              exact hall j hj1 hj2
            | some d => exact (spanScanT_some hopt).2.2.2.2.2 j hj1 hj2
          exact lt_of_le_of_lt hle hsc
      · rw [solver_spec_divide hlen hrd hb1 hsc] at hsolver
        simp at hsolver
  · intro d hd1 hd2 hdpos hdge hlt hle
    have hscan : spanScanT inp pOff len metric = (spanDev inp pOff len metric d, some d) := by
      rw [spanScanT]
      exact scanFold_of_argmax hd1 (by omega) rfl hdpos
        (fun j hj1 hj2 => hlt j hj1 hj2)
        (fun j hj1 hj2 => hle j hj1 (by omega))
    have hsc : ¬ (spanScanT inp pOff len metric).1 < eps * eps := by
      rw [hscan]
      exact hdge
    have h := solver_spec_divide hlen hrd hb1 hsc
    rw [hscan] at h
    exact h

/-- Witness for C5 on the span `(0,0), (1,1), (2,0)` with tolerance 10. -/
theorem claim_C5_witness :
    ((0 < (10 : ℚ) * 10 ∧
        ∀ j, 1 ≤ j → j < 3 - 1 →
          spanDev [⟨0,0⟩, ⟨1,1⟩, ⟨2,0⟩] 0 3 perpendicularDistance j < 10 * 10) ↔
      compactPathSubproblemSolver
          ⟨[⟨0,0⟩, ⟨1,1⟩, ⟨2,0⟩], [⟨7,7⟩, ⟨7,7⟩, ⟨7,7⟩], false⟩ 0 3 0 10
          perpendicularDistance =
        some (CompactPathResultCode.linearize,
          ⟨[⟨0,0⟩, ⟨1,1⟩, ⟨2,0⟩],
           overwrite [⟨7,7⟩, ⟨7,7⟩, ⟨7,7⟩] 0
             [spanStart [⟨0,0⟩, ⟨1,1⟩, ⟨2,0⟩] 0, spanEnd [⟨0,0⟩, ⟨1,1⟩, ⟨2,0⟩] 0 3],
           false⟩,
          2, none)) ∧
    (∀ d, 1 ≤ d → d < 3 - 1 →
      0 < spanDev [⟨0,0⟩, ⟨1,1⟩, ⟨2,0⟩] 0 3 perpendicularDistance d →
      ¬ spanDev [⟨0,0⟩, ⟨1,1⟩, ⟨2,0⟩] 0 3 perpendicularDistance d < 10 * 10 →
      (∀ j, 1 ≤ j → j < d →
        spanDev [⟨0,0⟩, ⟨1,1⟩, ⟨2,0⟩] 0 3 perpendicularDistance j <
          spanDev [⟨0,0⟩, ⟨1,1⟩, ⟨2,0⟩] 0 3 perpendicularDistance d) →
      (∀ j, 1 ≤ j → j < 3 - 1 →
        spanDev [⟨0,0⟩, ⟨1,1⟩, ⟨2,0⟩] 0 3 perpendicularDistance j ≤
          spanDev [⟨0,0⟩, ⟨1,1⟩, ⟨2,0⟩] 0 3 perpendicularDistance d) →
      compactPathSubproblemSolver
          ⟨[⟨0,0⟩, ⟨1,1⟩, ⟨2,0⟩], [⟨7,7⟩, ⟨7,7⟩, ⟨7,7⟩], false⟩ 0 3 0 10
          perpendicularDistance =
        some (CompactPathResultCode.divide,
          ⟨[⟨0,0⟩, ⟨1,1⟩, ⟨2,0⟩], [⟨7,7⟩, ⟨7,7⟩, ⟨7,7⟩], false⟩, 0, some d)) :=
  @claim_C5 ⟨[⟨0,0⟩, ⟨1,1⟩, ⟨2,0⟩], [⟨7,7⟩, ⟨7,7⟩, ⟨7,7⟩], false⟩
    [⟨0,0⟩, ⟨1,1⟩, ⟨2,0⟩] 0 3 10 perpendicularDistance
    (by decide) (by decide) (by decide) (by decide)

/-- Counterexample to C5 as stated: on the collinear span
`(0,0), (1,0), (2,0)` with tolerance 0, the solver returns Divide but
the index it hands back is the never-assigned `iMaxPointIndex` (modelled
`none`), not an interior argmax index. -/
theorem claim_C5_cex :
    compactPathSubproblemSolver
        ⟨[⟨0,0⟩, ⟨1,0⟩, ⟨2,0⟩], [⟨7,7⟩, ⟨7,7⟩, ⟨7,7⟩], false⟩ 0 3 0 0
        perpendicularDistance =
      some (CompactPathResultCode.divide,
        ⟨[⟨0,0⟩, ⟨1,0⟩, ⟨2,0⟩], [⟨7,7⟩, ⟨7,7⟩, ⟨7,7⟩], false⟩, 0, none) := by
  have hsc : ¬ (spanScanT [⟨0,0⟩, ⟨1,0⟩, ⟨2,0⟩] 0 3 perpendicularDistance).1 <
      (0 : ℚ) * 0 := by
    rw [scan_collinear]
    show ¬ (0 : ℚ) < 0 * 0
    norm_num
  have h := @solver_spec_divide
    ⟨[⟨0,0⟩, ⟨1,0⟩, ⟨2,0⟩], [⟨7,7⟩, ⟨7,7⟩, ⟨7,7⟩], false⟩
    [⟨0,0⟩, ⟨1,0⟩, ⟨2,0⟩] 0 3 0 perpendicularDistance
    (by omega) (by decide) (by decide) hsc
  rw [scan_collinear] at h
  exact h

/-- C6: refuted in the allocation model.  When the stack is full and the
growth `realloc` fails, `compactPathCallStackPush` has already
overwritten the only pointer to the stack with `realloc`'s NULL return,
so the `COMPACT_PATH_RETURN` cleanup frees NULL and the old stack block
stays live: the call reports failure but leaks the work stack. -/
theorem claim_C6 (b cap : Nat) :
    compactPathCallStackPush false { base := some b, capacity := cap, numCalls := cap }
        { live := [b], next := b + 1 } =
      (false, { base := none, capacity := cap + COMPACT_PATH_CALL_STACK_UNIT,
                numCalls := cap }, { live := [b], next := b + 1 }) ∧
    (compactPathReturnCleanup none { live := [b], next := b + 1 }).live = [b] :=
  ⟨push_realloc_failure b cap _ _ rfl, rfl⟩

/-- C7: running `compactPath` with the result array aliasing the input
array produces a result sequence and length identical to running it with
a separate result array (of sufficient capacity). -/
theorem claim_C7 (inp rinit : List DVector2D) (eps : ℚ) (metric : DeviationMetric)
    (hcap : inp.length ≤ rinit.length) :
    resultView (runCompactPathAliased inp eps metric) =
      resultView (runCompactPath inp rinit eps metric) := by
  rcases Nat.lt_or_ge inp.length 2 with hsmall | h2
  · rcases Nat.lt_or_ge inp.length 1 with h0 | h1
    · have hnil : inp = [] := List.length_eq_zero.mp (by omega)
      subst hnil
      rw [runCompactPath_nil, runCompactPathAliased_nil]
    · have h1' : inp.length = 1 := by omega
      obtain ⟨p, hp⟩ := List.length_eq_one.mp h1'
      subst hp
      rw [runCompactPath_one p rinit eps metric (by omega), runCompactPathAliased_one]
      simp only [resultView]
      rw [take_set_zero (by omega)]
      rfl
  · cases hrdp : rdpContrib inp eps metric 0 inp.length with
    | some l =>
      obtain ⟨res1, hres1, ht1⟩ := runCompactPathAliased_complete h2 hrdp
      obtain ⟨res2, hres2, ht2⟩ := runCompactPath_complete h2 hcap hrdp
      rw [hres1, hres2]
      simp only [resultView]
      rw [ht1, ht2]
    | none =>
      cases hA : runCompactPathAliased inp eps metric with
      | success resA lenA =>
        obtain ⟨l, hl, -, -⟩ := runCompactPathAliased_sound h2 hA
        rw [hrdp] at hl
        exact absurd hl (by simp)
      | failure =>
        cases hB : runCompactPath inp rinit eps metric with
        | success resB lenB =>
          obtain ⟨l, hl, -, -⟩ := runCompactPath_sound h2 hcap hB
          rw [hrdp] at hl
          exact absurd hl (by simp)
        | failure => rfl
        | ub => rfl
      | ub =>
        cases hB : runCompactPath inp rinit eps metric with
        | success resB lenB =>
          obtain ⟨l, hl, -, -⟩ := runCompactPath_sound h2 hcap hB
          rw [hrdp] at hl
          exact absurd hl (by simp)
        | failure => rfl
        | ub => rfl

/-- Witness for C7 at the two-point path `(0,0), (1,0)`. -/
theorem claim_C7_witness :
    resultView (runCompactPathAliased [⟨0,0⟩, ⟨1,0⟩] 1 perpendicularDistance) =
      resultView (runCompactPath [⟨0,0⟩, ⟨1,0⟩] [⟨9,9⟩, ⟨9,9⟩] 1 perpendicularDistance) :=
  claim_C7 [⟨0,0⟩, ⟨1,0⟩] [⟨9,9⟩, ⟨9,9⟩] 1 perpendicularDistance (by decide)

/-- C8: for a fixed input, result buffer and metric, and tolerances
`0 ≤ e1 ≤ e2`, if the call at tolerance `e1` succeeds then the call at
tolerance `e2` succeeds with a result length that is no larger. -/
theorem claim_C8 (inp rinit : List DVector2D) (e1 e2 : ℚ) (metric : DeviationMetric)
    (res1 : List DVector2D) (len1 : Nat)
    (h0 : 0 ≤ e1) (h12 : e1 ≤ e2) (hcap : inp.length ≤ rinit.length)
    (hrun1 : runCompactPath inp rinit e1 metric = CPOutcome.success res1 len1) :
    ∃ res2 len2, runCompactPath inp rinit e2 metric = CPOutcome.success res2 len2 ∧
      len2 ≤ len1 := by
  rcases Nat.lt_or_ge inp.length 2 with hsmall | h2
  · rcases Nat.lt_or_ge inp.length 1 with hz | h1
    · have hnil : inp = [] := List.length_eq_zero.mp (by omega)
      subst hnil
      rw [runCompactPath_nil] at hrun1
      exact absurd hrun1 (by simp)
    · have h1' : inp.length = 1 := by omega
      obtain ⟨p, hp⟩ := List.length_eq_one.mp h1'
      subst hp
      rw [runCompactPath_one p rinit e1 metric (by omega)] at hrun1
      injection hrun1 with ha hb
      refine ⟨rinit.set 0 p, 1, runCompactPath_one p rinit e2 metric (by omega), by omega⟩
  · obtain ⟨l1, hl1, hlen1, -⟩ := runCompactPath_sound h2 hcap hrun1
    obtain ⟨l2, hl2, hle⟩ := rdpContrib_mono inp metric inp.length 0 l1 e1 e2 h0 h12
      (by omega) (by omega) hl1
    obtain ⟨res2, hres2, -⟩ := runCompactPath_complete h2 hcap hl2
    exact ⟨res2, 1 + l2.length, hres2, by omega⟩

/-- Witness for C8 at the two-point path `(0,0), (1,0)` with tolerances
0 and 1. -/
theorem claim_C8_witness :
    ∃ res2 len2,
      runCompactPath [⟨0,0⟩, ⟨1,0⟩] [⟨9,9⟩, ⟨9,9⟩] 1 perpendicularDistance =
        CPOutcome.success res2 len2 ∧ len2 ≤ 2 :=
  claim_C8 [⟨0,0⟩, ⟨1,0⟩] [⟨9,9⟩, ⟨9,9⟩] 0 1 perpendicularDistance [⟨0,0⟩, ⟨1,0⟩] 2
    (by decide) (by decide) (by decide) (by decide)

/-- C9: re-running `compactPath` on the first `len` points of its own
successful output, with the same tolerance and metric and a fresh result
buffer of sufficient capacity, succeeds with the same reported length
and returns the same points. -/
theorem claim_C9 (inp rinit rinit2 : List DVector2D) (eps : ℚ) (metric : DeviationMetric)
    (res : List DVector2D) (len : Nat)
    (hcap : inp.length ≤ rinit.length) (hcap2 : len ≤ rinit2.length)
    (hrun : runCompactPath inp rinit eps metric = CPOutcome.success res len) :
    ∃ res2, runCompactPath (res.take len) rinit2 eps metric =
        CPOutcome.success res2 len ∧
      res2.take len = res.take len := by
  rcases Nat.lt_or_ge inp.length 2 with hsmall | h2
  · rcases Nat.lt_or_ge inp.length 1 with hz | h1
    · have hnil : inp = [] := List.length_eq_zero.mp (by omega)
      subst hnil
      rw [runCompactPath_nil] at hrun
      exact absurd hrun (by simp)
    · have h1' : inp.length = 1 := by omega
      obtain ⟨p, hp⟩ := List.length_eq_one.mp h1'
      subst hp
      rw [runCompactPath_one p rinit eps metric (by omega)] at hrun
      injection hrun with ha hb
      subst ha
      subst hb
      have htk : (rinit.set 0 p).take 1 = [p] := take_set_zero (by omega)
      rw [htk]
      exact ⟨rinit2.set 0 p, runCompactPath_one p rinit2 eps metric (by omega),
        take_set_zero (by omega)⟩
  · obtain ⟨l, hl, hlen, htake⟩ := runCompactPath_sound h2 hcap hrun
    obtain ⟨hl1, -, -, -⟩ := rdpContrib_facts inp eps metric inp.length 0 l h2
      (by omega) hl
    have hT1 : inp.take 1 = [inp[0]] := take_one_of_pos (by omega)
    have houtlen : (res.take len).length = len := by
      rw [htake, hT1]
      simp only [List.length_append, List.length_cons, List.length_nil]
      omega
    have hslice : sliceSpan (res.take len) 0 (l.length + 1) = inp.getD 0 default :: l := by
      rw [sliceSpan, List.drop_zero, List.take_take,
        Nat.min_eq_left (by omega : l.length + 1 ≤ len),
        (by omega : l.length + 1 = len), htake, hT1,
        getD_default_eq (by omega : 0 < inp.length)]
      rfl
    have hidem := rdpContrib_idem metric inp eps inp.length 0 l (res.take len) 0
      h2 (by omega) hl (by rw [houtlen]; omega) hslice
    have hlenout : (res.take len).length = l.length + 1 := by rw [houtlen]; omega
    obtain ⟨res2, hres2, ht2⟩ := @runCompactPath_complete (res.take len) rinit2 eps metric l
      (by rw [hlenout]; omega) (by rw [houtlen]; exact hcap2)
      (by rw [hlenout]; exact hidem)
    have hq : (res.take len).take 1 = [inp[0]] := by
      rw [htake, hT1]
      rfl
    refine ⟨res2, ?_, ?_⟩
    · rw [hres2, hlen]
    · calc res2.take len = res2.take (1 + l.length) := by rw [hlen]
        _ = (res.take len).take 1 ++ l := ht2
        _ = [inp[0]] ++ l := by rw [hq]
        _ = res.take len := by rw [htake, hT1]

/-- Witness for C9 at the two-point path `(0,0), (1,0)`. -/
theorem claim_C9_witness :
    ∃ res2,
      runCompactPath (([⟨0,0⟩, ⟨1,0⟩] : List DVector2D).take 2) [⟨8,8⟩, ⟨8,8⟩] 1
          perpendicularDistance = CPOutcome.success res2 2 ∧
      res2.take 2 = ([⟨0,0⟩, ⟨1,0⟩] : List DVector2D).take 2 :=
  claim_C9 [⟨0,0⟩, ⟨1,0⟩] [⟨9,9⟩, ⟨9,9⟩] [⟨8,8⟩, ⟨8,8⟩] 1 perpendicularDistance
    [⟨0,0⟩, ⟨1,0⟩] 2 (by decide) (by decide) (by decide)

/-- C10: refuted on the collinear path `(0,0), (1,0), (2,0)` with
tolerance 0 and `perpendicularDistance`.  All interior deviations are 0,
so the strict `>` scan never assigns `iMaxPointIndex`, yet
`0.0 < 0.0 * 0.0` is false, so the solver returns Divide and the driver
branches on the uninitialized index: undefined behavior. -/
theorem claim_C10 :
    runCompactPath [⟨0,0⟩, ⟨1,0⟩, ⟨2,0⟩] [⟨9,9⟩, ⟨9,9⟩, ⟨9,9⟩] 0 perpendicularDistance =
      CPOutcome.ub := by
  have hsc : ¬ (spanScanT [⟨0,0⟩, ⟨1,0⟩, ⟨2,0⟩] 0 3 perpendicularDistance).1 <
      (0 : ℚ) * 0 := by
    rw [scan_collinear]
    show ¬ (0 : ℚ) < 0 * 0
    norm_num
  have hsolver := @solver_spec_divide
    ⟨[⟨0,0⟩, ⟨1,0⟩, ⟨2,0⟩], [⟨0,0⟩, ⟨9,9⟩, ⟨9,9⟩], false⟩
    [⟨0,0⟩, ⟨1,0⟩, ⟨2,0⟩] 0 3 0 perpendicularDistance
    (by omega) (by decide) (by decide) hsc
  rw [scan_collinear] at hsolver
  rw [runCompactPath_eq_loop _ _ _ _ (by decide) (by decide)]
  show compactPathLoop 0 perpendicularDistance (7 + 1) [⟨0, 0, 3⟩]
      ⟨[⟨0,0⟩, ⟨1,0⟩, ⟨2,0⟩], [⟨0,0⟩, ⟨9,9⟩, ⟨9,9⟩], false⟩ 1 = CPOutcome.ub
  simp only [compactPathLoop]
  rw [hsolver]

end PathCompacter
